import Mathlib

/-!
Shallow embedding of the pi-second-brain structured-document engine.

Documents are modelled as lists of characters (`List Char`), exactly as JS
strings are sequences of UTF-16 units; all inputs used here are plain text.
The daily-note store is a map from an abstract day index (`Int`) to the
optional content of that day's file; the calendar (which concrete
year/month/day/weekday a day index denotes) is an explicit parameter, as is
the wall clock, mirroring the spec's injectable clock collaborator.

Every definition below is translated from the repository source
(`daily.ts` / `para.ts` / `extractor.ts`); comments cite the function.
-/

/-! ## Character and string utilities (JS semantics) -/

/-- The character class matched by `\s` in JS regexes, which is also the set
trimmed by `String.prototype.trim`: ASCII whitespace plus the Unicode
space separators, line/paragraph separators and BOM. -/
def jsWs (c : Char) : Bool :=
  c = ' ' || c = '\t' || c = '\n' || c = '\r' || c.val = 11 || c.val = 12 ||
  c.val = 0xa0 || c.val = 0x1680 || (0x2000 ≤ c.val && c.val ≤ 0x200a) ||
  c.val = 0x2028 || c.val = 0x2029 || c.val = 0x202f || c.val = 0x205f ||
  c.val = 0x3000 || c.val = 0xfeff

/-- JS `String.prototype.trim`: drop leading and trailing `jsWs` characters. -/
def jsTrim (s : List Char) : List Char :=
  ((s.dropWhile jsWs).reverse.dropWhile jsWs).reverse

/-- JS `content.split("\n")`: split into lines at every newline; a trailing
newline yields a final empty piece, and splitting the empty string yields
one empty piece. -/
def splitNl : List Char → List (List Char)
  | [] => [[]]
  | c :: cs =>
    if c = '\n' then [] :: splitNl cs
    else
      match splitNl cs with
      | l :: ls => (c :: l) :: ls
      | [] => [[c]]

/-- JS `lines.join("\n")`. -/
def joinNl (lss : List (List Char)) : List Char :=
  List.intercalate ['\n'] lss

/-- JS `Array.prototype.splice(n, 0, x)` on a list of lines: insert `x` at
index `n` (clamped to the end, as splice clamps). -/
def spliceAt (n : Nat) (x : α) (xs : List α) : List α :=
  xs.take n ++ x :: xs.drop n

/-- Index of the first element satisfying `p`, as the JS `for` loops over
`lines` compute it. -/
def findIdxP (p : α → Bool) : List α → Option Nat
  | [] => none
  | x :: xs => if p x then some 0 else (findIdxP p xs).map (· + 1)

/-! ## daily.ts: section-aware insertion -/

/-- The level-2 header-prefix test used throughout `daily.ts`:
`line.startsWith("## " + section)`. -/
def headerPfx (sect : List Char) : List Char :=
  "## ".data ++ sect

/-- The skip loop shared by `appendToLog` and `appendToSection` in `daily.ts`:
starting just after the matched header, count how many lines to skip.  A line
is skipped when it is an HTML comment (`startsWith("<!-- ")`) or blank
(`trim() === ""`); the loop stops (skipping nothing further) at any other
line, or at a level-2 header that does not itself start with the section
prefix `pfx`. -/
def skipBlanks (pfx : List Char) : List (List Char) → Nat
  | [] => 0
  | l :: ls =>
    if ("## ".data.isPrefixOf l) && !(pfx.isPrefixOf l) then 0
    else if "<!-- ".data.isPrefixOf l then 1 + skipBlanks pfx ls
    else if jsTrim l = [] then 1 + skipBlanks pfx ls
    else 0

/-- Content-level core of `appendToSection` (daily.ts): find the first line
starting with `"## " + section`; if none, the document is left unchanged (the
source skips the write entirely); otherwise splice `line` in after the header
and the initial run of blank/comment lines.  Total: never throws. -/
def appendBody (sect line content : List Char) : List Char :=
  let lines := splitNl content
  match findIdxP (fun l => (headerPfx sect).isPrefixOf l) lines with
  | none => content
  | some i =>
    joinNl (spliceAt (i + 1 + skipBlanks (headerPfx sect) (lines.drop (i + 1))) line lines)

/-- JS `String(n).padStart(2, "0")` for a natural number. -/
def pad2 (n : Nat) : List Char :=
  let s := (toString n).data
  if s.length < 2 then '0' :: s else s

/-- The timestamped log line built by `appendToLog` (daily.ts):
`- HH:MM — text`, from the injected wall clock. -/
def logLine (entry : List Char) (hh mm : Nat) : List Char :=
  "- ".data ++ pad2 hh ++ ":".data ++ pad2 mm ++ " — ".data ++ entry

/-- Content-level core of `appendToLog` (daily.ts): like `appendBody` with
the fixed prefix `"## Log"`, except that when no such header exists the
formatted line is appended at the very end of the document
(`content + "\n" + logEntry + "\n"`). -/
def appendToLogBody (content entry : List Char) (hh mm : Nat) : List Char :=
  let lines := splitNl content
  match findIdxP (fun l => "## Log".data.isPrefixOf l) lines with
  | none => content ++ '\n' :: (logLine entry hh mm ++ ['\n'])
  | some i =>
    joinNl (spliceAt (i + 1 + skipBlanks "## Log".data (lines.drop (i + 1)))
      (logLine entry hh mm) lines)

/-! ## daily.ts: checklist-line regexes

`/^-\s+\[\s\]\s+(.+)/` and `/^-\s+\[x\]\s+(.+)/i`, implemented directly:
a dash, one or more whitespace characters, the bracket group, one or more
whitespace characters, then a non-empty greedy capture running to the end
of the line (`.` cannot match a newline, and lines contain none). -/

/-- The trailing part `\s+(.+)` of both checklist regexes, applied to the text
after the closing bracket.  Greedily: if anything non-whitespace follows the
whitespace run, the capture starts at the first non-whitespace character;
if only whitespace follows, backtracking leaves a single (whitespace)
character as the capture, which needs at least two characters in total. -/
def tailCapture (rest : List Char) : Option (List Char) :=
  if rest.dropWhile jsWs = [] then
    if 2 ≤ rest.length then rest.getLast?.map (fun c => [c]) else none
  else
    if rest.takeWhile jsWs = [] then none else some (rest.dropWhile jsWs)

/-- The bracket group `\[·\]` of the checklist regexes: an opening bracket,
one arbitrary character, a closing bracket, then the rest. -/
def bracketTail : List Char → Option (Char × List Char)
  | [] => none
  | [_] => none
  | [_, _] => none
  | b1 :: b2 :: b3 :: r2 =>
    if b1 = '[' ∧ b3 = ']' then some (b2, r2) else none

/-- Capture group of `/^-\s+\[\s\]\s+(.+)/` (unchecked checklist line): a
dash, at least one whitespace character, `[`, one whitespace character, `]`,
then the tail capture. -/
def todoCapture (l : List Char) : Option (List Char) :=
  match l with
  | [] => none
  | c0 :: rest =>
    if c0 = '-' then
      if rest.takeWhile jsWs = [] then none
      else
        (bracketTail (rest.dropWhile jsWs)).bind fun p =>
          if jsWs p.1 then tailCapture p.2 else none
    else none

/-- Capture group of `/^-\s+\[x\]\s+(.+)/i` (checked checklist line,
case-insensitive marker). -/
def doneCapture (l : List Char) : Option (List Char) :=
  match l with
  | [] => none
  | c0 :: rest =>
    if c0 = '-' then
      if rest.takeWhile jsWs = [] then none
      else
        (bracketTail (rest.dropWhile jsWs)).bind fun p =>
          if p.1.toLower = 'x' then tailCapture p.2 else none
    else none

/-- The literal rollover marker used by `ensureDailyNote`. -/
def rolledMarker : List Char := "*(rolled over)*".data

/-- JS `x.replace(/\s*\*\(rolled over\)\*\s*$/, "")`: if the text ends with
the rollover marker (allowing surrounding whitespace), remove that suffix;
otherwise leave the text unchanged. -/
def stripRolled (x : List Char) : List Char :=
  let r := x.reverse.dropWhile jsWs
  if rolledMarker.reverse.isPrefixOf r then
    ((r.drop rolledMarker.length).dropWhile jsWs).reverse
  else x

/-! ## daily.ts: the Priorities scanners -/

/-- A parsed priority item (`{text, done}`), as produced by `getPriorities`. -/
structure PriorityItem where
  text : List Char
  done : Bool
deriving DecidableEq, Repr

/-- The loop shared verbatim by `extractIncompletePriorities` and
`getPriorities` in daily.ts, abstracted over the per-line classifier `f`:
a line starting with `"## Priorities"` turns the flag on and is otherwise
skipped (`continue`); once the flag is on, any other line starting with
`"## "` stops the whole scan (`break`); while the flag is on every other
line contributes `f line` when that is `some`. -/
def prioScan (f : List Char → Option α) : List (List Char) → Bool → List α
  | [], _ => []
  | l :: ls, inP =>
    if "## Priorities".data.isPrefixOf l then prioScan f ls true
    else if inP && "## ".data.isPrefixOf l then []
    else if inP then
      match f l with
      | some a => a :: prioScan f ls inP
      | none => prioScan f ls inP
    else prioScan f ls inP

/-- Per-line body of `extractIncompletePriorities`: an unchecked match whose
capture has non-empty trim contributes the capture with any trailing
rollover marker stripped. -/
def incClassify (l : List Char) : Option (List Char) :=
  match todoCapture l with
  | some x => if jsTrim x ≠ [] then some (stripRolled x) else none
  | none => none

/-- `extractIncompletePriorities` (daily.ts). -/
def extractIncompletePriorities (content : List Char) : List (List Char) :=
  prioScan incClassify (splitNl content) false

/-- Per-line body of `getPriorities`: the checked match is tried first and
wins regardless of its text; an unchecked match needs a non-empty trim. -/
def prioClassify (l : List Char) : Option PriorityItem :=
  match doneCapture l with
  | some t => some ⟨t, true⟩
  | none =>
    match todoCapture l with
    | some t => if jsTrim t ≠ [] then some ⟨t, false⟩ else none
    | none => none

/-- Content-level core of `getPriorities` (daily.ts). -/
def getPrioritiesBody (content : List Char) : List PriorityItem :=
  prioScan prioClassify (splitNl content) false

/-- The range of lines the Priorities scanners actually visit (used to state
their characterization): everything after the first line starting with
`"## Priorities"`, up to but excluding the first later line that starts with
`"## "` without starting with `"## Priorities"`. -/
def prioritiesRegion (lines : List (List Char)) : List (List Char) :=
  ((lines.dropWhile (fun l => !("## Priorities".data.isPrefixOf l))).drop 1).takeWhile
    (fun l => !("## ".data.isPrefixOf l && !("## Priorities".data.isPrefixOf l)))

/-! ## daily.ts: dates, the template and the store -/

/-- The calendar facts daily.ts reads off a JS `Date`: `getFullYear`,
`getMonth` (0-based, always in range), `getDate`, `getDay` (always in
range). -/
structure DateParts where
  year : Nat
  month : Fin 12
  day : Nat
  dow : Fin 7

/-- The `DAYS` table of daily.ts. -/
def dayNames : List (List Char) :=
  ["Sunday".data, "Monday".data, "Tuesday".data, "Wednesday".data,
   "Thursday".data, "Friday".data, "Saturday".data]

/-- The `MONTHS` table of daily.ts. -/
def monthNames : List (List Char) :=
  ["January".data, "February".data, "March".data, "April".data, "May".data,
   "June".data, "July".data, "August".data, "September".data, "October".data,
   "November".data, "December".data]

/-- `formatDate` (daily.ts): `YYYY-MM-DD` with zero-padded month and day. -/
def formatDate (dp : DateParts) : List Char :=
  (toString dp.year).data ++ "-".data ++ pad2 (dp.month.val + 1) ++ "-".data ++ pad2 dp.day

/-- `dayName` (daily.ts).  The index is always in range, so `getD` equals the
JS table lookup. -/
def dayName (dp : DateParts) : List Char :=
  dayNames.getD dp.dow.val []

/-- `fullDate` (daily.ts): `MonthName D, YYYY`. -/
def fullDate (dp : DateParts) : List Char :=
  monthNames.getD dp.month.val [] ++ " ".data ++ (toString dp.day).data ++ ", ".data ++
    (toString dp.year).data

def apos : Char := Char.ofNat 39

def btick : Char := Char.ofNat 96

/-- `GetSubstitution` of the JS spec for a string pattern (no capture
groups): in the replacement text, `$$` yields `$`, `$&` the matched text,
a dollar-backtick the text before the match, a dollar-apostrophe the text
after it; every other sequence is literal (with no capture groups `$1`,
`$<`… stay literal). -/
def getSubstitution (m b a : List Char) : List Char → List Char
  | [] => []
  | [c] => [c]
  | c :: c2 :: rest =>
    if c = '$' then
      (if c2 = '$' then '$' :: getSubstitution m b a rest
       else if c2 = '&' then m ++ getSubstitution m b a rest
       else if c2 = btick then b ++ getSubstitution m b a rest
       else if c2 = apos then a ++ getSubstitution m b a rest
       else '$' :: c2 :: getSubstitution m b a rest)
    else c :: getSubstitution m b a (c2 :: rest)

/-- Helper for `jsReplaceFirst`: `acc` holds the scanned prefix reversed. -/
def replaceFirstAux (pat rep : List Char) : List Char → List Char → List Char
  | acc, [] =>
    if pat.isPrefixOf [] then
      acc.reverse ++ getSubstitution pat acc.reverse [] rep
    else acc.reverse
  | acc, c :: cs =>
    if pat.isPrefixOf (c :: cs) then
      acc.reverse ++ getSubstitution pat acc.reverse ((c :: cs).drop pat.length) rep
        ++ (c :: cs).drop pat.length
    else replaceFirstAux pat rep (c :: acc) cs

/-- JS `s.replace(pat, rep)` with a string pattern: replace the first
occurrence of `pat` (if any) by `rep` processed through `GetSubstitution`. -/
def jsReplaceFirst (s pat rep : List Char) : List Char :=
  replaceFirstAux pat rep [] s

/-- JS `s.replace(/pat/g, rep)` for a literal pattern and a replacement with
no `$` sequences (all replacements fed to it here are rendered dates, which
never contain `$`, so `GetSubstitution` is the identity on them): replace
every non-overlapping occurrence left to right, not rescanning the
replacement. -/
def replaceAllLitAux (pat rep : List Char) : Nat → List Char → List Char
  | 0, s => s
  | fuel + 1, s =>
    match s with
    | [] => []
    | c :: cs =>
      if pat ≠ [] ∧ pat.isPrefixOf (c :: cs) then
        rep ++ replaceAllLitAux pat rep fuel ((c :: cs).drop pat.length)
      else
        c :: replaceAllLitAux pat rep fuel cs

def replaceAllLit (pat rep s : List Char) : List Char :=
  replaceAllLitAux pat rep s.length s

/-- Template instantiation in `ensureDailyNote` (daily.ts): global
replacement of the three placeholders, in source order. -/
def instantiateTemplate (t : List Char) (dp : DateParts) : List Char :=
  replaceAllLit "\x7b\x7bFULL_DATE\x7d\x7d".data (fullDate dp)
    (replaceAllLit "\x7b\x7bDAY_NAME\x7d\x7d".data (dayName dp)
      (replaceAllLit "\x7b\x7bDATE\x7d\x7d".data (formatDate dp) t))

/-- The built-in skeleton used by `ensureDailyNote` when no template file is
installed. -/
def defaultSkeleton (dp : DateParts) : List Char :=
  "---\ndate: ".data ++ formatDate dp ++ "\n---\n# ".data ++ dayName dp ++ ", ".data ++
    fullDate dp ++
    "\n\n## Priorities\n- [ ] \n\n## Log\n\n## Notes\n\n## Decisions\n\n## Learned\n".data

/-- One rolled-over line of `ensureDailyNote`:
`\`- [ ] ${p} *(rolled over)*\``. -/
def rolledLine (p : List Char) : List Char :=
  "- [ ] ".data ++ p ++ " *(rolled over)*".data

/-- The block of rolled-over lines built by `ensureDailyNote`:
`incomplete.map(p => "- [ ] " + p + " *(rolled over)*").join("\n")`. -/
def rolledSection (incomplete : List (List Char)) : List Char :=
  joinNl (incomplete.map rolledLine)

/-- The part of the built-in skeleton before the placeholder line (used to
state where the rollover splice lands). -/
def preSkel (dp : DateParts) : List Char :=
  "---\ndate: ".data ++ formatDate dp ++ "\n---\n# ".data ++ dayName dp ++ ", ".data ++
    fullDate dp ++ "\n\n## Priorities\n".data

/-- The part of the built-in skeleton after the placeholder line. -/
def sufSkel : List Char :=
  "\n## Log\n\n## Notes\n\n## Decisions\n\n## Learned\n".data

/-- The lines of the built-in skeleton before the rolled-over block. -/
def preLines (dp : DateParts) : List (List Char) :=
  ["---".data, "date: ".data ++ formatDate dp, "---".data,
   "# ".data ++ dayName dp ++ ", ".data ++ fullDate dp, [], "## Priorities".data]

/-- The lines of the built-in skeleton after the rolled-over block: the kept
placeholder, a blank, then the remaining sections. -/
def tailLines : List (List Char) :=
  ["- [ ] ".data, [], "## Log".data, [], "## Notes".data, [], "## Decisions".data,
   [], "## Learned".data, []]

/-- The store the daily-note engine mutates: one optional document per day
index, plus the optional `daily` template.  Day `d - 1` is yesterday. -/
structure Fs where
  notes : Int → Option (List Char)
  template : Option (List Char)

/-- `writeFileSync` of day `d`'s note. -/
def setNote (fs : Fs) (d : Int) (c : List Char) : Fs :=
  { fs with notes := fun i => if i = d then some c else fs.notes i }

/-- The content `ensureDailyNote` writes for an absent day `d`: template
instantiation (or the built-in skeleton), then the rollover splice — a
first-occurrence replacement of the placeholder line `"- [ ] \n"` in the
whole document. -/
def ensureContent (cal : Int → DateParts) (d : Int) (fs : Fs) : List Char :=
  let base := match fs.template with
    | some t => instantiateTemplate t (cal d)
    | none => defaultSkeleton (cal d)
  match fs.notes (d - 1) with
  | some y =>
    let incomplete := extractIncompletePriorities y
    if incomplete.length > 0 then
      jsReplaceFirst base "- [ ] \n".data (rolledSection incomplete ++ "\n- [ ] \n".data)
    else base
  | none => base

/-- `ensureDailyNote` (daily.ts): if day `d`'s note exists return the store
unchanged, else create the note from `ensureContent`. -/
def ensureDailyNote (cal : Int → DateParts) (d : Int) (fs : Fs) : Fs :=
  match fs.notes d with
  | some _ => fs
  | none => setNote fs d (ensureContent cal d fs)

/-- `appendToSection` (daily.ts): ensure the note, then run the section
splice.  When the header is absent the source skips `writeFileSync`;
`appendBody` then returns the content unchanged, so storing it back is
observationally identical. -/
def appendToSection (cal : Int → DateParts) (sect line : List Char) (d : Int) (fs : Fs) : Fs :=
  let fs1 := ensureDailyNote cal d fs
  let content := (fs1.notes d).getD []
  setNote fs1 d (appendBody sect line content)

/-- `appendToLog` (daily.ts): ensure the note, then insert the formatted
line (falling back to end-of-document); `hh`/`mm` are the injected wall
clock (`new Date()` at call time, independent of the target day `d`). -/
def appendToLog (cal : Int → DateParts) (entry : List Char) (hh mm : Nat) (d : Int)
    (fs : Fs) : Fs :=
  let fs1 := ensureDailyNote cal d fs
  let content := (fs1.notes d).getD []
  setNote fs1 d (appendToLogBody content entry hh mm)

/-- `readDailyNote` (daily.ts): ensure then read. -/
def readDailyNote (cal : Int → DateParts) (d : Int) (fs : Fs) : List Char :=
  ((ensureDailyNote cal d fs).notes d).getD []

/-- `getPriorities` (daily.ts). -/
def getPriorities (cal : Int → DateParts) (d : Int) (fs : Fs) : List PriorityItem :=
  getPrioritiesBody (readDailyNote cal d fs)

/-! ## extractor.ts: light extraction (decisions) and the daily write-back -/

def apos0 : List Char := [apos]

/-- JS `\w` (word character), the class `\b` boundaries are defined from. -/
def wordChar (c : Char) : Bool :=
  ('a' ≤ c && c ≤ 'z') || ('A' ≤ c && c ≤ 'Z') || ('0' ≤ c && c ≤ '9') || c = '_'

/-- Case-insensitive prefix match against a lowercase alternative; returns
the rest of the input after the match. -/
def ciMatchEnd : List Char → List Char → Option (List Char)
  | [], s => some s
  | _ :: _, [] => none
  | a :: as, c :: cs => if c.toLower = a then ciMatchEnd as cs else none

/-- Does one of the (lowercase) alternatives match here, ending at a word
boundary (end of input or a non-word character)? -/
def altHit (alts : List (List Char)) (s : List Char) : Bool :=
  alts.any fun alt =>
    match ciMatchEnd alt s with
    | some [] => true
    | some (c :: _) => !wordChar c
    | none => false

/-- Scan every position of the line, tracking whether the previous character
is a word character (for the leading `\b`). -/
def scanAlts (alts : List (List Char)) : List Char → Bool → Bool
  | s, prevWord =>
    (!prevWord && altHit alts s) ||
    match s with
    | [] => false
    | c :: cs => scanAlts alts cs (wordChar c)

/-- The alternatives of the decision regex of `lightExtract` (extractor.ts):
`/\b(decided|going with|let's (go with|use|do)|we('ll| will) (use|go))\b/i`,
expanded and lowercased. -/
def decisionAlts : List (List Char) :=
  ["decided".data, "going with".data,
   "let".data ++ apos0 ++ "s go with".data,
   "let".data ++ apos0 ++ "s use".data,
   "let".data ++ apos0 ++ "s do".data,
   "we".data ++ apos0 ++ "ll use".data,
   "we".data ++ apos0 ++ "ll go".data,
   "we will use".data, "we will go".data]

/-- `.test` of the decision regex. -/
def testDecision (line : List Char) : Bool :=
  scanAlts decisionAlts line false

/-- The decision condition of `lightExtract`: regex hit and
`line.length > 15 && line.length < 300`. -/
def decisionLineOk (l : List Char) : Bool :=
  testDecision l && decide (15 < l.length) && decide (l.length < 300)

/-- One block of an array-valued message content (`{type?, text?}`). -/
structure ContentBlock where
  type : Option (List Char)
  text : Option (List Char)
deriving DecidableEq

/-- A message's `content`: a plain string, an array of blocks, or anything
else (which `extractText` maps to the empty string). -/
inductive MsgContent where
  | str (s : List Char)
  | blocks (bs : List ContentBlock)
  | other
deriving DecidableEq

/-- A session entry's optional `message`. -/
structure Message where
  role : Option (List Char)
  content : MsgContent
deriving DecidableEq

/-- One entry of the session transcript fed to `lightExtract`. -/
structure SessionEntry where
  type : List Char
  message : Option Message
deriving DecidableEq

/-- `extractText` (extractor.ts): a string is itself; an array keeps the
blocks whose `type` is `"text"` and joins their texts (absent text is `""`)
with newlines; anything else is `""`. -/
def extractText : MsgContent → List Char
  | .str s => s
  | .blocks bs =>
    joinNl ((bs.filter fun b => b.type == some "text".data).map fun b => b.text.getD [])
  | .other => []

/-- JS `[...new Set(xs)]`, with the set of already-seen elements made
explicit: an element already inserted is skipped, otherwise it is kept and
recorded; first occurrences survive in encounter order. -/
def eraseDupKFAux (seen : List (List Char)) : List (List Char) → List (List Char)
  | [] => []
  | x :: xs => if x ∈ seen then eraseDupKFAux seen xs else x :: eraseDupKFAux (x :: seen) xs

/-- JS `[...new Set(xs)]`: deduplicate keeping the first occurrence of each
element, preserving encounter order. -/
def eraseDupKF (xs : List (List Char)) : List (List Char) :=
  eraseDupKFAux [] xs

/-- The decision lines one session entry contributes in `lightExtract`
(extractor.ts): entries not of type `"message"` or without a message are
skipped, as is an empty flattened text (`if (!text) continue`); otherwise
the text is split into lines and each line passing the decision test is
pushed trimmed. -/
def decisionLinesOfEntry (e : SessionEntry) : List (List Char) :=
  if e.type = "message".data then
    match e.message with
    | some m =>
      let text := extractText m.content
      if text = [] then []
      else (splitNl text).filterMap fun l =>
        if decisionLineOk l then some (jsTrim l) else none
    | none => []
  else []

/-- The `decisions` component of `lightExtract` (extractor.ts): the pushed
lines over all entries, deduplicated (`[...new Set(...)]`) and truncated to
the first five. -/
def lightExtractDecisions (entries : List SessionEntry) : List (List Char) :=
  (eraseDupKF (entries.flatMap decisionLinesOfEntry)).take 5

/-- The lines of an entry's flattened message text, with no filtering: used
to state the characterization of `lightExtractDecisions`. -/
def msgLines (e : SessionEntry) : List (List Char) :=
  if e.type = "message".data then
    match e.message with
    | some m => splitNl (extractText m.content)
    | none => []
  else []

/-- One write effect of `writeToDaily`: a call to `appendToLog` or to
`appendToSection` on today's note. -/
inductive WriteOp where
  | log (line : List Char)
  | sec (name : List Char) (line : List Char)
deriving DecidableEq, Repr

/-- The knowledge record produced by light extraction (extractor.ts). -/
structure ExtractedKnowledge where
  decisions : List (List Char)
  solutions : List (List Char)
  learnings : List (List Char)
  todos : List (List Char)
  commands : List (List Char)
  projectContext : Option (List Char)
deriving DecidableEq

def natChars (n : Nat) : List Char := (toString n).data

/-- `writeToDaily` (extractor.ts), with its filesystem effects recorded as an
ordered trace of operations: build `parts` (a `Working on **ctx**` prefix if
the project context is present, then — if any of the three counts is
positive — the comma-joined counts), log the dot-joined parts when nonempty,
then append every decision to `Decisions` and every learning to `Learned`. -/
def writeToDaily (k : ExtractedKnowledge) : List WriteOp :=
  let parts : List (List Char) :=
    match k.projectContext with
    | some p => ["Working on **".data ++ p ++ "**".data]
    | none => []
  let items : List (List Char) :=
    (if k.decisions.length > 0 then [natChars k.decisions.length ++ " decision(s)".data]
     else []) ++
    (if k.solutions.length > 0 then [natChars k.solutions.length ++ " solution(s)".data]
     else []) ++
    (if k.learnings.length > 0 then [natChars k.learnings.length ++ " learning(s)".data]
     else [])
  let parts := parts ++ (if items.length > 0 then [List.intercalate ", ".data items] else [])
  (if parts.length > 0 then [WriteOp.log (List.intercalate ". ".data parts)] else [])
  ++ k.decisions.map (fun d => WriteOp.sec "Decisions".data ("- ".data ++ d))
  ++ k.learnings.map (fun l => WriteOp.sec "Learned".data ("- ".data ++ l))

/-! ## extractor.ts: deep-extraction response parsing

`parseDeepExtraction` is `JSON.parse` behind two regex replaces; the JSON
grammar of `JSON.parse` is embedded below.  Numeric values are kept as their
lexeme (nothing here computes with them); a `\u` escape denoting a lone
surrogate (impossible to store in a scalar-value `Char`) maps to the default
character, a corner no claim touches. -/

/-- A parsed JSON value. -/
inductive Json where
  | null
  | bool (b : Bool)
  | num (lexeme : List Char)
  | str (s : List Char)
  | arr (elems : List Json)
  | obj (fields : List (List Char × Json))

/-- JSON insignificant whitespace. -/
def jsonWsChar (c : Char) : Bool :=
  c = ' ' || c = '\t' || c = '\n' || c = '\r'

def skipJsonWs (s : List Char) : List Char :=
  s.dropWhile jsonWsChar

def isDigitCh (c : Char) : Bool := '0' ≤ c && c ≤ '9'

def isHexCh (c : Char) : Bool :=
  isDigitCh c || ('a' ≤ c && c ≤ 'f') || ('A' ≤ c && c ≤ 'F')

def hexVal (c : Char) : Nat :=
  if isDigitCh c then c.toNat - '0'.toNat
  else if 'a' ≤ c && c ≤ 'f' then c.toNat - 'a'.toNat + 10
  else c.toNat - 'A'.toNat + 10

/-- JSON string body after the opening quote: the decoded characters and the
rest of the input after the closing quote.  Escapes per the JSON grammar;
unescaped control characters below `0x20` are invalid. -/
def parseJsonString : Nat → List Char → Option (List Char × List Char)
  | 0, _ => none
  | _, [] => none
  | fuel + 1, c :: cs =>
    if c = '"' then some ([], cs)
    else if c = '\\' then
      match cs with
      | [] => none
      | e :: cs2 =>
        let dec : Option (Char × List Char) :=
          if e = '"' then some ('"', cs2)
          else if e = '\\' then some ('\\', cs2)
          else if e = '/' then some ('/', cs2)
          else if e = 'b' then some ('\x08', cs2)
          else if e = 'f' then some ('\x0c', cs2)
          else if e = 'n' then some ('\n', cs2)
          else if e = 'r' then some ('\r', cs2)
          else if e = 't' then some ('\t', cs2)
          else if e = 'u' then
            match cs2 with
            | h1 :: h2 :: h3 :: h4 :: cs3 =>
              if isHexCh h1 && isHexCh h2 && isHexCh h3 && isHexCh h4 then
                some (Char.ofNat
                  (((hexVal h1 * 16 + hexVal h2) * 16 + hexVal h3) * 16 + hexVal h4), cs3)
              else none
            | _ => none
          else none
        match dec with
        | some (ch, rest) => (parseJsonString fuel rest).map fun p => (ch :: p.1, p.2)
        | none => none
    else if c.toNat < 0x20 then none
    else (parseJsonString fuel cs).map fun p => (c :: p.1, p.2)

/-- JSON number: lexeme and rest.  A `.` or exponent marker not followed by
digits is left in the rest (where the surrounding grammar then rejects it,
exactly as `JSON.parse` raises on such inputs). -/
def parseJsonNumber (s : List Char) : Option (List Char × List Char) :=
  let sp : List Char × List Char :=
    match s with
    | '-' :: cs => (['-'], cs)
    | _ => ([], s)
  match hs1 : sp.2 with
  | c :: cs =>
    if isDigitCh c then
      let ip : List Char × List Char :=
        if c = '0' then (['0'], cs)
        else (c :: cs.takeWhile isDigitCh, cs.dropWhile isDigitCh)
      let fp : List Char × List Char :=
        match ip.2 with
        | '.' :: rs =>
          if rs.takeWhile isDigitCh ≠ [] then
            ('.' :: rs.takeWhile isDigitCh, rs.dropWhile isDigitCh)
          else ([], ip.2)
        | _ => ([], ip.2)
      let ep : List Char × List Char :=
        match fp.2 with
        | e :: rs =>
          if e = 'e' ∨ e = 'E' then
            match rs with
            | sn :: rs2 =>
              if sn = '+' ∨ sn = '-' then
                if rs2.takeWhile isDigitCh ≠ [] then
                  (e :: sn :: rs2.takeWhile isDigitCh, rs2.dropWhile isDigitCh)
                else ([], fp.2)
              else
                if rs.takeWhile isDigitCh ≠ [] then
                  (e :: rs.takeWhile isDigitCh, rs.dropWhile isDigitCh)
                else ([], fp.2)
            | [] => ([], fp.2)
          else ([], fp.2)
        | [] => ([], fp.2)
      some (sp.1 ++ ip.1 ++ fp.1 ++ ep.1, ep.2)
    else none
  | [] => none

mutual

/-- One JSON value, by the grammar of `JSON.parse`; the fuel bounds the
recursion and is chosen large enough at the top entry. -/
def parseJsonVal : Nat → List Char → Option (Json × List Char)
  | 0, _ => none
  | fuel + 1, s =>
    match skipJsonWs s with
    | [] => none
    | '\x7b' :: cs => parseJsonMembers fuel cs true []
    | '[' :: cs => parseJsonItems fuel cs true []
    | '"' :: cs => (parseJsonString (cs.length + 1) cs).map fun p => (Json.str p.1, p.2)
    | 't' :: cs => if "rue".data.isPrefixOf cs then some (Json.bool true, cs.drop 3) else none
    | 'f' :: cs => if "alse".data.isPrefixOf cs then some (Json.bool false, cs.drop 4) else none
    | 'n' :: cs => if "ull".data.isPrefixOf cs then some (Json.null, cs.drop 3) else none
    | s1 => (parseJsonNumber s1).map fun p => (Json.num p.1, p.2)

/-- Object members after `\x7b` (`first`) or after a comma (where a closing
brace is no longer allowed). -/
def parseJsonMembers : Nat → List Char → Bool → List (List Char × Json) →
    Option (Json × List Char)
  | 0, _, _, _ => none
  | fuel + 1, s, first, acc =>
    match skipJsonWs s with
    | '\x7d' :: cs => if first then some (Json.obj acc, cs) else none
    | '"' :: cs =>
      match parseJsonString (cs.length + 1) cs with
      | none => none
      | some (key, r1) =>
        match skipJsonWs r1 with
        | ':' :: r2 =>
          match parseJsonVal fuel r2 with
          | none => none
          | some (v, r3) =>
            match skipJsonWs r3 with
            | ',' :: r4 => parseJsonMembers fuel r4 false (acc ++ [(key, v)])
            | '\x7d' :: r4 => some (Json.obj (acc ++ [(key, v)]), r4)
            | _ => none
        | _ => none
    | _ => none

/-- Array items after `[` (`first`) or after a comma. -/
def parseJsonItems : Nat → List Char → Bool → List Json → Option (Json × List Char)
  | 0, _, _, _ => none
  | fuel + 1, s, first, acc =>
    match skipJsonWs s with
    | ']' :: cs => if first then some (Json.arr acc, cs) else none
    | s1 =>
      match parseJsonVal fuel s1 with
      | none => none
      | some (v, r1) =>
        match skipJsonWs r1 with
        | ',' :: r2 => parseJsonItems fuel r2 false (acc ++ [v])
        | ']' :: r2 => some (Json.arr (acc ++ [v]), r2)
        | _ => none

end

/-- `JSON.parse`: parse one value and require only whitespace after it.  The
fuel is an upper bound on the total number of parser steps; every step
consumes at least one input character, so `2·|s| + 4` always suffices. -/
def jsonParse (s : List Char) : Option Json :=
  match parseJsonVal (2 * s.length + 4) s with
  | some (v, rest) => if skipJsonWs rest = [] then some v else none
  | none => none

def fence3 : List Char := [btick, btick, btick]

/-- What `/^```json?\n?/m` can consume at a line start: three backticks then
`jso` (the `?` of the regex binds only to the final `n`). -/
def fenceOpenPat : List Char := fence3 ++ "jso".data

/-- First replace of `parseDeepExtraction`:
`response.replace(/^```json?\n?/m, "")` — at the first line start matching
the opening-fence pattern, remove it (with the optional `n` and newline);
everything before and after stays. -/
def stripLeadFenceAux : List Char → Bool → List Char
  | [], _ => []
  | c :: cs, atStart =>
    if atStart && fenceOpenPat.isPrefixOf (c :: cs) then
      let r1 := (c :: cs).drop 6
      let r2 := match r1 with
        | 'n' :: rs => rs
        | _ => r1
      match r2 with
      | '\n' :: rs => rs
      | _ => r2
    else c :: stripLeadFenceAux cs (c = '\n')

def stripLeadFence (s : List Char) : List Char :=
  stripLeadFenceAux s true

def lineEndP : List Char → Bool
  | [] => true
  | c :: _ => c = '\n'

/-- Second replace of `parseDeepExtraction`: `.replace(/\n?```$/m, "")` —
remove the first occurrence of an optional newline followed by a
three-backtick line ending at a line end. -/
def stripTrailFence : List Char → List Char
  | [] => []
  | c :: cs =>
    if c = '\n' && fence3.isPrefixOf cs && lineEndP (cs.drop 3) then cs.drop 3
    else if fence3.isPrefixOf (c :: cs) && lineEndP ((c :: cs).drop 3) then (c :: cs).drop 3
    else c :: stripTrailFence cs

/-- `parseDeepExtraction` (extractor.ts): strip the fences, `JSON.parse` the
rest; a raised parse failure is caught and becomes `null`, and a successful
parse of the literal `null` yields the very same JS `null` — both are
`none` here ("absent").  Any other successfully parsed value — object or
not — is returned as-is: the code performs no structural validation against
the `DeepExtraction` shape. -/
def parseDeepExtraction (response : List Char) : Option Json :=
  match jsonParse (stripTrailFence (stripLeadFence response)) with
  | none => none
  | some Json.null => none
  | some v => some v

/-! ## Lemmas on the utilities -/

theorem splitNl_cons_nl (cs : List Char) : splitNl ('\n' :: cs) = [] :: splitNl cs := by
  simp [splitNl]

theorem splitNl_ne_nil (s : List Char) : splitNl s ≠ [] := by
  induction s with
  | nil => simp [splitNl]
  | cons c cs ih =>
    by_cases h : c = '\n'
    · subst h; simp [splitNl]
    · simp only [splitNl, if_neg h]
      cases hs : splitNl cs with
      | nil => simp
      | cons l ls => simp

theorem splitNl_cons_other (c : Char) (cs : List Char) (h : c ≠ '\n') :
    splitNl (c :: cs) = (c :: (splitNl cs).headI) :: (splitNl cs).tail := by
  simp only [splitNl, if_neg h]
  cases hs : splitNl cs with
  | nil => exact absurd hs (splitNl_ne_nil cs)
  | cons l ls => simp

theorem splitNl_no_nl (s : List Char) (h : '\n' ∉ s) : splitNl s = [s] := by
  induction s with
  | nil => simp [splitNl]
  | cons c cs ih =>
    have hc : c ≠ '\n' := fun he => h (he ▸ List.mem_cons_self c cs)
    have hcs : '\n' ∉ cs := fun hm => h (List.mem_cons_of_mem c hm)
    rw [splitNl_cons_other c cs hc, ih hcs]
    simp

theorem splitNl_append_nl (l rest : List Char) (h : '\n' ∉ l) :
    splitNl (l ++ '\n' :: rest) = l :: splitNl rest := by
  induction l with
  | nil => simp [splitNl_cons_nl]
  | cons c cs ih =>
    have hc : c ≠ '\n' := fun he => h (he ▸ List.mem_cons_self c cs)
    have hcs : '\n' ∉ cs := fun hm => h (List.mem_cons_of_mem c hm)
    rw [List.cons_append, splitNl_cons_other c _ hc, ih hcs]
    simp

theorem mem_splitNl_no_nl (s : List Char) : ∀ l ∈ splitNl s, '\n' ∉ l := by
  induction s with
  | nil => intro l hl; simp [splitNl] at hl; simp [hl]
  | cons c cs ih =>
    intro l hl
    by_cases h : c = '\n'
    · subst h; rw [splitNl_cons_nl] at hl
      rcases List.mem_cons.mp hl with hl | hl
      · simp [hl]
      · exact ih l hl
    · rw [splitNl_cons_other c cs h] at hl
      rcases List.mem_cons.mp hl with hl | hl
      · subst hl
        intro hmem
        rcases List.mem_cons.mp hmem with hmem | hmem
        · exact h hmem.symm
        · cases hhead : splitNl cs with
          | nil => exact absurd hhead (splitNl_ne_nil cs)
          | cons a as =>
            refine ih a (by simp [hhead]) ?_
            simpa [hhead, List.headI] using hmem
      · cases hhead : splitNl cs with
        | nil => exact absurd hhead (splitNl_ne_nil cs)
        | cons a as =>
          refine ih l ?_
          rw [hhead]
          rw [hhead] at hl
          exact List.mem_cons_of_mem a hl

theorem joinNl_cons_cons (a b : List Char) (ls : List (List Char)) :
    joinNl (a :: b :: ls) = a ++ '\n' :: joinNl (b :: ls) := by
  simp [joinNl, List.intercalate, List.intersperse]

theorem joinNl_singleton (a : List Char) : joinNl [a] = a := by
  simp [joinNl, List.intercalate]

theorem splitNl_joinNl (lss : List (List Char)) (hne : lss ≠ [])
    (h : ∀ l ∈ lss, '\n' ∉ l) : splitNl (joinNl lss) = lss := by
  induction lss with
  | nil => exact absurd rfl hne
  | cons a ls ih =>
    cases ls with
    | nil => rw [joinNl_singleton, splitNl_no_nl a (h a (by simp))]
    | cons b ls' =>
      rw [joinNl_cons_cons, splitNl_append_nl a _ (h a (by simp))]
      rw [ih (by simp) (fun l hl => h l (List.mem_cons_of_mem a hl))]

theorem findIdxP_eq_none (p : α → Bool) (xs : List α) (h : ∀ x ∈ xs, ¬ p x) :
    findIdxP p xs = none := by
  induction xs with
  | nil => rfl
  | cons x xs ih =>
    simp only [findIdxP]
    rw [if_neg (by simpa using h x (by simp))]
    rw [ih (fun y hy => h y (List.mem_cons_of_mem x hy))]
    rfl

theorem findIdxP_append_hit (p : α → Bool) (pre suf : List α) (x : α)
    (hpre : ∀ y ∈ pre, ¬ p y) (hx : p x) :
    findIdxP p (pre ++ x :: suf) = some pre.length := by
  induction pre with
  | nil => simp [findIdxP, hx]
  | cons a as ih =>
    have ha : ¬ p a = true := by simpa using hpre a (by simp)
    have := ih (fun y hy => hpre y (List.mem_cons_of_mem a hy))
    simp only [List.cons_append, findIdxP, if_neg ha, List.append_eq, this,
      List.length_cons]
    rfl

theorem skipBlanks_le (pfx : List Char) (ls : List (List Char)) :
    skipBlanks pfx ls ≤ ls.length := by
  induction ls with
  | nil => simp [skipBlanks]
  | cons l ls ih =>
    rw [skipBlanks]
    split
    · simp
    · split
      · simpa [Nat.add_comm] using ih
      · split
        · simpa [Nat.add_comm] using ih
        · simp

theorem skipBlanks_spec (pfx : List Char) (ls : List (List Char)) :
    ∀ l ∈ ls.take (skipBlanks pfx ls),
      "<!-- ".data.isPrefixOf l = true ∨ jsTrim l = [] := by
  induction ls with
  | nil => simp [skipBlanks]
  | cons l ls ih =>
    rw [skipBlanks]
    split
    · intro x hx; simp at hx
    · split
      next h2 =>
        intro x hx
        rw [Nat.add_comm 1 (skipBlanks pfx ls), List.take_succ_cons] at hx
        rcases List.mem_cons.mp hx with hx | hx
        · exact Or.inl (hx ▸ h2)
        · exact ih x hx
      · split
        next h3 =>
          intro x hx
          rw [Nat.add_comm 1 (skipBlanks pfx ls), List.take_succ_cons] at hx
          rcases List.mem_cons.mp hx with hx | hx
          · exact Or.inr (hx ▸ h3)
          · exact ih x hx
        · intro x hx; simp at hx

theorem prioScan_true (f : List Char → Option α)
    (hf : ∀ l, "## Priorities".data.isPrefixOf l = true → f l = none) :
    ∀ ls : List (List Char),
      prioScan f ls true =
        (ls.takeWhile
          (fun l => !("## ".data.isPrefixOf l && !("## Priorities".data.isPrefixOf l)))).filterMap f := by
  intro ls
  induction ls with
  | nil => rfl
  | cons l ls ih =>
    by_cases hp : "## Priorities".data.isPrefixOf l
    · rw [prioScan]
      rw [if_pos hp, List.takeWhile_cons, if_pos (by simp [hp]), List.filterMap_cons,
        hf l hp, ih]
    · by_cases hdr : "## ".data.isPrefixOf l
      · rw [prioScan]
        rw [if_neg hp, if_pos (by simp [hdr, hp]), List.takeWhile_cons,
          if_neg (by simp [hdr, hp])]
        rfl
      · rw [prioScan]
        rw [if_neg hp, if_neg (by simp [hdr]), if_pos rfl, List.takeWhile_cons,
          if_pos (by simp [hdr]), List.filterMap_cons]
        cases hfl : f l with
        | none => simpa [hfl] using ih
        | some a => simpa [hfl] using ih

theorem prioScan_false (f : List Char → Option α)
    (hf : ∀ l, "## Priorities".data.isPrefixOf l = true → f l = none) :
    ∀ ls : List (List Char),
      prioScan f ls false = (prioritiesRegion ls).filterMap f := by
  intro ls
  induction ls with
  | nil => rfl
  | cons l ls ih =>
    by_cases hp : "## Priorities".data.isPrefixOf l
    · rw [prioScan]
      rw [if_pos hp]
      rw [prioritiesRegion, List.dropWhile_cons, if_neg (by simp [hp]),
        List.drop_one, List.tail_cons]
      exact prioScan_true f hf ls
    · have hreg : prioritiesRegion (l :: ls) = prioritiesRegion ls := by
        rw [prioritiesRegion, prioritiesRegion, List.dropWhile_cons, if_pos (by simp [hp])]
      rw [prioScan]
      rw [if_neg hp, if_neg (by simp), if_neg (by simp), ih, hreg]

theorem isPrefixOf_cons_of_ne {l : List Char} {a b : Char} {as : List Char}
    (hab : a ≠ b) : (a :: as).isPrefixOf (b :: l) = false := by
  simp [List.isPrefixOf, hab]

theorem todoCapture_header (l : List Char)
    (hp : "## Priorities".data.isPrefixOf l = true) : todoCapture l = none := by
  rcases List.isPrefixOf_iff_prefix.mp hp with ⟨t, ht⟩
  subst ht
  rfl

theorem doneCapture_header (l : List Char)
    (hp : "## Priorities".data.isPrefixOf l = true) : doneCapture l = none := by
  rcases List.isPrefixOf_iff_prefix.mp hp with ⟨t, ht⟩
  subst ht
  rfl

theorem incClassify_header (l : List Char)
    (hp : "## Priorities".data.isPrefixOf l = true) : incClassify l = none := by
  rw [incClassify, todoCapture_header l hp]

theorem prioClassify_header (l : List Char)
    (hp : "## Priorities".data.isPrefixOf l = true) : prioClassify l = none := by
  rw [prioClassify, doneCapture_header l hp, todoCapture_header l hp]

theorem extractIncompletePriorities_eq (content : List Char) :
    extractIncompletePriorities content =
      (prioritiesRegion (splitNl content)).filterMap incClassify :=
  prioScan_false incClassify incClassify_header (splitNl content)

theorem getPrioritiesBody_eq (content : List Char) :
    getPrioritiesBody content =
      (prioritiesRegion (splitNl content)).filterMap prioClassify :=
  prioScan_false prioClassify prioClassify_header (splitNl content)

theorem isPrefixOf_append_self (pfx t : List Char) : pfx.isPrefixOf (pfx ++ t) = true :=
  List.isPrefixOf_iff_prefix.mpr ⟨t, rfl⟩

theorem splice_into_joinNl (pre suf : List (List Char)) (hdr l pfx : List Char)
    (hpre : ∀ p ∈ pre, ¬ pfx.isPrefixOf p) (hhit : pfx.isPrefixOf hdr)
    (hnl : ∀ p ∈ pre, '\n' ∉ p) (hnlh : '\n' ∉ hdr) (hnls : ∀ p ∈ suf, '\n' ∉ p) :
    splitNl (joinNl (pre ++ hdr :: suf)) = pre ++ hdr :: suf ∧
    findIdxP (fun ln => pfx.isPrefixOf ln) (pre ++ hdr :: suf) = some pre.length ∧
    (pre ++ hdr :: suf).drop (pre.length + 1) = suf ∧
    spliceAt (pre.length + 1 + skipBlanks pfx suf) l (pre ++ hdr :: suf)
      = pre ++ hdr :: spliceAt (skipBlanks pfx suf) l suf := by
  have hmem : ∀ p ∈ pre ++ hdr :: suf, '\n' ∉ p := by
    intro p hp
    rcases List.mem_append.mp hp with hp | hp
    · exact hnl p hp
    · rcases List.mem_cons.mp hp with hp | hp
      · exact hp ▸ hnlh
      · exact hnls p hp
  have hsplit : pre ++ hdr :: suf = (pre ++ [hdr]) ++ suf := by simp
  have hlen : (pre ++ [hdr]).length = pre.length + 1 := by simp
  refine ⟨splitNl_joinNl _ (by simp) hmem, findIdxP_append_hit _ _ _ _ hpre hhit, ?_, ?_⟩
  · rw [hsplit, List.drop_left' hlen]
  · rw [spliceAt, hsplit]
    have hN : pre.length + 1 + skipBlanks pfx suf
        = (pre ++ [hdr]).length + skipBlanks pfx suf := by
      rw [hlen]
    rw [hN, List.take_append, List.drop_append]
    simp [spliceAt]

theorem spliceAt_decomp (pre suf : List (List Char)) (hdr l : List Char) (k : Nat) :
    (pre ++ hdr :: suf).drop (pre.length + 1) = suf ∧
    spliceAt (pre.length + 1 + k) l (pre ++ hdr :: suf) = pre ++ hdr :: spliceAt k l suf := by
  have hsplit : pre ++ hdr :: suf = (pre ++ [hdr]) ++ suf := by simp
  have hlen : (pre ++ [hdr]).length = pre.length + 1 := by simp
  constructor
  · rw [hsplit, List.drop_left' hlen]
  · rw [spliceAt, hsplit]
    have hN : pre.length + 1 + k = (pre ++ [hdr]).length + k := by rw [hlen]
    rw [hN, List.take_append, List.drop_append]
    simp [spliceAt]

theorem ensureDailyNote_existing (cal : Int → DateParts) (d : Int) (fs : Fs)
    (content : List Char) (h : fs.notes d = some content) :
    ensureDailyNote cal d fs = fs := by
  rw [ensureDailyNote, h]

theorem setNote_notes_self (fs : Fs) (d : Int) (c : List Char) :
    (setNote fs d c).notes d = some c := by
  simp [setNote]

theorem appendToSection_existing (cal : Int → DateParts) (sect line : List Char) (d : Int)
    (fs : Fs) (content : List Char) (h : fs.notes d = some content) :
    (appendToSection cal sect line d fs).notes d = some (appendBody sect line content) := by
  rw [appendToSection, ensureDailyNote_existing cal d fs content h]
  rw [h]
  simp [setNote_notes_self]

theorem appendToLog_existing (cal : Int → DateParts) (entry : List Char) (hh mm : Nat)
    (d : Int) (fs : Fs) (content : List Char) (h : fs.notes d = some content) :
    (appendToLog cal entry hh mm d fs).notes d
      = some (appendToLogBody content entry hh mm) := by
  rw [appendToLog, ensureDailyNote_existing cal d fs content h]
  rw [h]
  simp [setNote_notes_self]

theorem appendBody_of_none (sect line content : List Char)
    (h : findIdxP (fun l => (headerPfx sect).isPrefixOf l) (splitNl content) = none) :
    appendBody sect line content = content := by
  simp only [appendBody, h]

theorem appendBody_of_some (sect line content : List Char) (i : Nat)
    (h : findIdxP (fun l => (headerPfx sect).isPrefixOf l) (splitNl content) = some i) :
    appendBody sect line content
      = joinNl (spliceAt (i + 1 + skipBlanks (headerPfx sect) ((splitNl content).drop (i + 1)))
          line (splitNl content)) := by
  simp only [appendBody, h]

theorem appendToLogBody_of_none (content entry : List Char) (hh mm : Nat)
    (h : findIdxP (fun l => "## Log".data.isPrefixOf l) (splitNl content) = none) :
    appendToLogBody content entry hh mm
      = content ++ '\n' :: (logLine entry hh mm ++ ['\n']) := by
  simp only [appendToLogBody, h]

theorem appendToLogBody_of_some (content entry : List Char) (hh mm : Nat) (i : Nat)
    (h : findIdxP (fun l => "## Log".data.isPrefixOf l) (splitNl content) = some i) :
    appendToLogBody content entry hh mm
      = joinNl (spliceAt (i + 1 + skipBlanks "## Log".data ((splitNl content).drop (i + 1)))
          (logLine entry hh mm) (splitNl content)) := by
  simp only [appendToLogBody, h]

theorem readDailyNote_existing (cal : Int → DateParts) (d : Int) (fs : Fs)
    (content : List Char) (h : fs.notes d = some content) :
    readDailyNote cal d fs = content := by
  rw [readDailyNote, ensureDailyNote_existing cal d fs content h, h]
  rfl

theorem flatMap_filterMap (xs : List α) (g : α → List β) (h : β → Option γ) :
    (xs.flatMap fun e => (g e).filterMap h) = (xs.flatMap g).filterMap h := by
  induction xs with
  | nil => rfl
  | cons x xs ih => simp only [List.flatMap_cons, List.filterMap_append, ih]

theorem decisionLineOk_nil : decisionLineOk ([] : List Char) = false := by decide

theorem eraseDupKF_nil : eraseDupKF [] = [] := rfl

theorem eraseDupKF_singleton (x : List Char) : eraseDupKF [x] = [x] := by
  simp [eraseDupKF, eraseDupKFAux]

theorem decisionLinesOfEntry_eq (e : SessionEntry) :
    decisionLinesOfEntry e = (msgLines e).filterMap fun l =>
      if testDecision l ∧ 15 < l.length ∧ l.length < 300
      then some (jsTrim l) else none := by
  have hF : (fun l : List Char => if decisionLineOk l then some (jsTrim l) else none)
      = fun l => if testDecision l ∧ 15 < l.length ∧ l.length < 300
          then some (jsTrim l) else none := by
    funext l
    refine if_congr ?_ rfl rfl
    simp [decisionLineOk, and_assoc]
  rw [decisionLinesOfEntry, msgLines, ← hF]
  by_cases ht : e.type = "message".data
  · rw [if_pos ht, if_pos ht]
    cases hm : e.message with
    | none => rfl
    | some m =>
      show (if extractText m.content = [] then []
        else (splitNl (extractText m.content)).filterMap fun l =>
          if decisionLineOk l then some (jsTrim l) else none)
        = (splitNl (extractText m.content)).filterMap fun l =>
            if decisionLineOk l then some (jsTrim l) else none
      by_cases hz : extractText m.content = []
      · rw [if_pos hz, hz, splitNl_no_nl [] (by simp), List.filterMap_cons,
          decisionLineOk_nil]
        rfl
      · rw [if_neg hz]
  · rw [if_neg ht, if_neg ht]
    rfl

theorem lightExtractDecisions_characterization (entries : List SessionEntry) :
    lightExtractDecisions entries
      = (eraseDupKF ((entries.flatMap msgLines).filterMap fun l =>
          if testDecision l ∧ 15 < l.length ∧ l.length < 300
          then some (jsTrim l) else none)).take 5 := by
  rw [lightExtractDecisions]
  rw [show decisionLinesOfEntry = fun e => (msgLines e).filterMap fun l =>
      if testDecision l ∧ 15 < l.length ∧ l.length < 300
      then some (jsTrim l) else none from funext decisionLinesOfEntry_eq]
  rw [flatMap_filterMap]

theorem lightExtractDecisions_single (l : List Char) (role : Option (List Char))
    (hnl : '\n' ∉ l) :
    jsTrim l ∈ lightExtractDecisions
        [⟨"message".data, some ⟨role, MsgContent.str l⟩⟩]
      ↔ (testDecision l ∧ 15 < l.length ∧ l.length < 300) := by
  rw [lightExtractDecisions_characterization]
  have hflat : ([⟨"message".data, some ⟨role, MsgContent.str l⟩⟩] :
      List SessionEntry).flatMap msgLines = [l] := by
    simp [List.flatMap_cons, msgLines, extractText, splitNl_no_nl l hnl]
  rw [hflat]
  by_cases hok : testDecision l ∧ 15 < l.length ∧ l.length < 300
  · rw [List.filterMap_cons]
    simp only [if_pos hok]
    rw [List.filterMap_nil, eraseDupKF_singleton]
    simpa using hok
  · rw [List.filterMap_cons]
    simp only [if_neg hok]
    rw [List.filterMap_nil, eraseDupKF_nil]
    simpa using hok

theorem writeToDaily_log_iff (k : ExtractedKnowledge) :
    (∃ m, WriteOp.log m ∈ writeToDaily k) ↔
      (k.decisions ≠ [] ∨ k.solutions ≠ [] ∨ k.learnings ≠ [] ∨
        k.projectContext.isSome) := by
  obtain ⟨ds, ss, ls, ts, cs, pc⟩ := k
  cases pc <;> cases ds <;> cases ss <;> cases ls <;>
    simp [writeToDaily]

theorem writeToDaily_sec_decisions (k : ExtractedKnowledge) (x : List Char) :
    WriteOp.sec "Decisions".data x ∈ writeToDaily k ↔
      ∃ d ∈ k.decisions, "- ".data ++ d = x := by
  have hne : "Decisions".data ≠ "Learned".data := by decide
  obtain ⟨ds, ss, ls, ts, cs, pc⟩ := k
  cases pc <;> cases ds <;> cases ss <;> cases ls <;>
    simp [writeToDaily, hne] <;> rw [eq_comm]

theorem writeToDaily_sec_learned (k : ExtractedKnowledge) (x : List Char) :
    WriteOp.sec "Learned".data x ∈ writeToDaily k ↔
      ∃ l ∈ k.learnings, "- ".data ++ l = x := by
  have hne : "Learned".data ≠ "Decisions".data := by decide
  obtain ⟨ds, ss, ls, ts, cs, pc⟩ := k
  cases pc <;> cases ds <;> cases ss <;> cases ls <;>
    simp [writeToDaily, hne] <;> rw [eq_comm]

theorem writeToDaily_ignores_todos_commands (k : ExtractedKnowledge)
    (t c : List (List Char)) :
    writeToDaily { k with todos := t, commands := c } = writeToDaily k := by
  obtain ⟨ds, ss, ls, ts, cs, pc⟩ := k
  rfl

theorem writeToDaily_solutions_only_counted (k : ExtractedKnowledge)
    (s : List (List Char)) (hs : s.length = k.solutions.length) :
    writeToDaily { k with solutions := s } = writeToDaily k := by
  obtain ⟨ds, ss, ls, ts, cs, pc⟩ := k
  simp only [writeToDaily, hs]

theorem writeToDaily_log_val (k : ExtractedKnowledge) (m : List Char)
    (hm : WriteOp.log m ∈ writeToDaily k) :
    m = List.intercalate ". ".data (
      (match k.projectContext with
       | some p => ["Working on **".data ++ p ++ "**".data]
       | none => []) ++
      (if k.decisions = [] ∧ k.solutions = [] ∧ k.learnings = [] then [] else
        [List.intercalate ", ".data
          ((if k.decisions = [] then []
            else [natChars k.decisions.length ++ " decision(s)".data]) ++
           (if k.solutions = [] then []
            else [natChars k.solutions.length ++ " solution(s)".data]) ++
           (if k.learnings = [] then []
            else [natChars k.learnings.length ++ " learning(s)".data]))])) := by
  obtain ⟨ds, ss, ls, ts, cs, pc⟩ := k
  cases pc <;> cases ds <;> cases ss <;> cases ls <;>
    simp_all [writeToDaily]

theorem ensureDailyNote_absent (cal : Int → DateParts) (d : Int) (fs : Fs)
    (h : fs.notes d = none) :
    (ensureDailyNote cal d fs).notes d = some (ensureContent cal d fs) := by
  rw [ensureDailyNote, h]
  exact setNote_notes_self fs d (ensureContent cal d fs)

theorem appendToSection_notes (cal : Int → DateParts) (sect line : List Char) (d : Int)
    (fs : Fs) :
    (appendToSection cal sect line d fs).notes d
      = some (appendBody sect line (((ensureDailyNote cal d fs).notes d).getD [])) := by
  rw [appendToSection]
  exact setNote_notes_self _ _ _

theorem appendToLog_notes (cal : Int → DateParts) (entry : List Char) (hh mm : Nat)
    (d : Int) (fs : Fs) :
    (appendToLog cal entry hh mm d fs).notes d
      = some (appendToLogBody (((ensureDailyNote cal d fs).notes d).getD []) entry hh mm) := by
  rw [appendToLog]
  exact setNote_notes_self _ _ _

theorem digitChar_isDigit (m : Nat) (h : m < 10) : (Nat.digitChar m).isDigit = true := by
  interval_cases m <;> decide

theorem toDigitsCore_digits : ∀ (fuel n : Nat) (ds : List Char),
    (∀ c ∈ ds, c.isDigit = true) →
    ∀ c ∈ Nat.toDigitsCore 10 fuel n ds, c.isDigit = true := by
  intro fuel
  induction fuel with
  | zero => intro n ds hds c hc; rw [Nat.toDigitsCore] at hc; exact hds c hc
  | succ fuel ih =>
    intro n ds hds c hc
    rw [Nat.toDigitsCore] at hc
    have hdigit : (Nat.digitChar (n % 10)).isDigit = true :=
      digitChar_isDigit _ (Nat.mod_lt _ (by norm_num))
    by_cases h0 : n / 10 = 0
    · simp only [h0, if_pos rfl] at hc
      rcases List.mem_cons.mp hc with hc | hc
      · exact hc ▸ hdigit
      · exact hds c hc
    · simp only [if_neg h0] at hc
      refine ih (n / 10) _ ?_ c hc
      intro x hx
      rcases List.mem_cons.mp hx with hx | hx
      · exact hx ▸ hdigit
      · exact hds x hx

theorem toString_nat_digits (n : Nat) : ∀ c ∈ (toString n).data, c.isDigit = true := by
  intro c hc
  have hrepr : (toString n).data = Nat.toDigits 10 n := rfl
  rw [hrepr, Nat.toDigits] at hc
  exact toDigitsCore_digits _ _ _ (by simp) c hc

/-- The characters appearing in rendered dates are harmless for every
argument below: not a newline, not an opening bracket, not a dollar. -/
def plainChar (c : Char) : Prop := c ≠ '\n' ∧ c ≠ '[' ∧ c ≠ '$'

instance : DecidablePred plainChar := fun c => by
  unfold plainChar
  infer_instance

theorem plainChar_of_digit (c : Char) (h : c.isDigit = true) : plainChar c := by
  refine ⟨fun he => ?_, fun he => ?_, fun he => ?_⟩ <;> (subst he; revert h; decide)

theorem toString_nat_plain (n : Nat) : ∀ c ∈ (toString n).data, plainChar c :=
  fun c hc => plainChar_of_digit c (toString_nat_digits n c hc)

theorem pad2_plain (n : Nat) : ∀ c ∈ pad2 n, plainChar c := by
  intro c hc
  rw [pad2] at hc
  by_cases hlen : ((toString n).data).length < 2
  · simp only [if_pos hlen] at hc
    rcases List.mem_cons.mp hc with hc | hc
    · subst hc; exact ⟨by decide, by decide, by decide⟩
    · exact toString_nat_plain n c hc
  · simp only [if_neg hlen] at hc
    exact toString_nat_plain n c hc

theorem formatDate_plain (dp : DateParts) : ∀ c ∈ formatDate dp, plainChar c := by
  intro c hc
  rw [formatDate] at hc
  rcases List.mem_append.mp hc with hc | hc
  · rcases List.mem_append.mp hc with hc | hc
    · rcases List.mem_append.mp hc with hc | hc
      · rcases List.mem_append.mp hc with hc | hc
        · exact toString_nat_plain _ c hc
        · simp only [List.mem_singleton] at hc
          subst hc; exact ⟨by decide, by decide, by decide⟩
      · exact pad2_plain _ c hc
    · simp only [List.mem_singleton] at hc
      subst hc; exact ⟨by decide, by decide, by decide⟩
  · exact pad2_plain _ c hc

theorem dayNames_plain (i : Nat) (hi : i < 7) :
    ∀ c ∈ dayNames.getD i [], plainChar c := by
  interval_cases i <;> decide

theorem monthNames_plain (i : Nat) (hi : i < 12) :
    ∀ c ∈ monthNames.getD i [], plainChar c := by
  interval_cases i <;> decide

theorem dayName_plain (dp : DateParts) : ∀ c ∈ dayName dp, plainChar c := by
  intro c hc
  rw [dayName] at hc
  exact dayNames_plain dp.dow.val dp.dow.isLt c hc

theorem fullDate_plain (dp : DateParts) : ∀ c ∈ fullDate dp, plainChar c := by
  intro c hc
  rw [fullDate] at hc
  rcases List.mem_append.mp hc with hc | hc
  · rcases List.mem_append.mp hc with hc | hc
    · rcases List.mem_append.mp hc with hc | hc
      · rcases List.mem_append.mp hc with hc | hc
        · exact monthNames_plain dp.month.val dp.month.isLt c hc
        · fin_cases hc <;> decide
      · exact toString_nat_plain _ c hc
    · fin_cases hc <;> decide
  · exact toString_nat_plain _ c hc

theorem getSubstitution_no_dollar (m b a : List Char) :
    ∀ rep, '$' ∉ rep → getSubstitution m b a rep = rep
  | [], _ => rfl
  | [c], _ => rfl
  | c :: c2 :: rest, h => by
    have hc : c ≠ '$' := fun he => h (he ▸ List.mem_cons_self c (c2 :: rest))
    have hrest : '$' ∉ c2 :: rest := fun hm => h (List.mem_cons_of_mem c hm)
    rw [getSubstitution, if_neg hc,
      getSubstitution_no_dollar m b a (c2 :: rest) hrest]

theorem replaceFirstAux_cons_hit (pat rep acc : List Char) (c : Char) (cs : List Char)
    (h : pat.isPrefixOf (c :: cs)) :
    replaceFirstAux pat rep acc (c :: cs)
      = acc.reverse ++ getSubstitution pat acc.reverse ((c :: cs).drop pat.length) rep
          ++ (c :: cs).drop pat.length := by
  rw [replaceFirstAux, if_pos h]

theorem replaceFirstAux_cons_miss (pat rep acc : List Char) (c : Char) (cs : List Char)
    (h : ¬ pat.isPrefixOf (c :: cs)) :
    replaceFirstAux pat rep acc (c :: cs) = replaceFirstAux pat rep (c :: acc) cs := by
  rw [replaceFirstAux, if_neg h]

theorem replaceFirstAux_skip (p0 : Char) (pt rep : List Char) :
    ∀ (pre acc suf : List Char),
      (∀ i, i < pre.length →
        ¬ (p0 :: pt).isPrefixOf ((pre ++ (p0 :: pt) ++ suf).drop i)) →
      replaceFirstAux (p0 :: pt) rep acc (pre ++ (p0 :: pt) ++ suf)
        = acc.reverse ++ pre ++
            getSubstitution (p0 :: pt) (acc.reverse ++ pre) suf rep ++ suf := by
  intro pre
  induction pre with
  | nil =>
    intro acc suf hno
    have hsh : ([] : List Char) ++ (p0 :: pt) ++ suf = p0 :: (pt ++ suf) := by simp
    rw [hsh, replaceFirstAux_cons_hit _ _ _ _ _
      (by rw [show p0 :: (pt ++ suf) = (p0 :: pt) ++ suf from rfl]
          exact isPrefixOf_append_self (p0 :: pt) suf)]
    rw [show p0 :: (pt ++ suf) = (p0 :: pt) ++ suf from rfl, List.drop_left]
    simp
  | cons c pre' ih =>
    intro acc suf hno
    have h0 : ¬ (p0 :: pt).isPrefixOf (c :: pre' ++ (p0 :: pt) ++ suf) := by
      have := hno 0 (by simp)
      simpa using this
    rw [show (c :: pre') ++ (p0 :: pt) ++ suf = c :: (pre' ++ (p0 :: pt) ++ suf) by simp]
    rw [replaceFirstAux_cons_miss _ _ _ _ _ (by simpa using h0)]
    have hrec := ih (c :: acc) suf (fun i hi => by
      have := hno (i + 1) (by simpa using Nat.succ_lt_succ hi)
      simpa using this)
    rw [hrec]
    simp

theorem jsReplaceFirst_skip (pat rep pre suf : List Char) (hpat : pat ≠ [])
    (hno : ∀ i, i < pre.length → ¬ pat.isPrefixOf ((pre ++ pat ++ suf).drop i)) :
    jsReplaceFirst (pre ++ pat ++ suf) pat rep
      = pre ++ getSubstitution pat pre suf rep ++ suf := by
  cases pat with
  | nil => exact absurd rfl hpat
  | cons p0 pt =>
    rw [jsReplaceFirst, replaceFirstAux_skip p0 pt rep pre [] suf hno]
    simp

theorem no_early_placeholder (pre suf : List Char) (h : '[' ∉ pre) :
    ∀ i, i < pre.length →
      ¬ "- [ ] \n".data.isPrefixOf ((pre ++ "- [ ] \n".data ++ suf).drop i) := by
  intro i hi hp
  rcases List.isPrefixOf_iff_prefix.mp hp with ⟨t, ht⟩
  rw [List.append_assoc, List.drop_append_of_le_length (Nat.le_of_lt hi)] at ht
  cases hd : pre.drop i with
  | nil =>
    have : pre.length - i = 0 := by
      have := congrArg List.length hd
      simpa using this
    omega
  | cons a l1 =>
    rw [hd] at ht
    cases l1 with
    | nil => simp at ht
    | cons b l2 =>
      cases l2 with
      | nil => simp at ht
      | cons c3 l3 =>
        have hc3 : c3 ∈ pre := List.drop_subset i pre (by rw [hd]; simp)
        have hdat : "- [ ] \n".data = ['-', ' ', '[', ' ', ']', ' ', '\n'] := rfl
        rw [hdat] at ht
        simp only [List.cons_append, List.append_assoc, List.cons.injEq] at ht
        obtain ⟨h1, h2, h3, _⟩ := ht
        exact h (h3.symm ▸ hc3)

theorem bracketTail_some (s : List Char) (c : Char) (r : List Char)
    (h : bracketTail s = some (c, r)) : s = '[' :: c :: ']' :: r := by
  match s with
  | [] => exact absurd h (by simp [bracketTail])
  | [a] => exact absurd h (by simp [bracketTail])
  | [a, b] => exact absurd h (by simp [bracketTail])
  | b1 :: b2 :: b3 :: r2 =>
    rw [bracketTail] at h
    split_ifs at h with hb
    simp only [Option.some.injEq, Prod.mk.injEq] at h
    obtain ⟨hc, hr⟩ := h
    subst hc; subst hr
    rw [hb.1, hb.2]

theorem tailCapture_subset (rest x : List Char) (h : tailCapture rest = some x) :
    ∀ a ∈ x, a ∈ rest := by
  rw [tailCapture] at h
  by_cases h1 : rest.dropWhile jsWs = []
  · rw [if_pos h1] at h
    by_cases h2 : 2 ≤ rest.length
    · rw [if_pos h2] at h
      cases hg : rest.getLast? with
      | none => rw [hg] at h; simp at h
      | some c =>
        rw [hg] at h
        simp only [Option.map_some', Option.some.injEq] at h
        intro a ha
        rw [← h] at ha
        simp only [List.mem_singleton] at ha
        exact ha ▸ List.mem_of_getLast?_eq_some hg
    · rw [if_neg h2] at h; cases h
  · rw [if_neg h1] at h
    by_cases h3 : rest.takeWhile jsWs = []
    · rw [if_pos h3] at h; cases h
    · rw [if_neg h3] at h
      simp only [Option.some.injEq] at h
      intro a ha
      exact List.dropWhile_subset jsWs (h ▸ ha)

theorem tailCapture_shape (rest x : List Char) (h : tailCapture rest = some x) :
    (∃ c cs, x = c :: cs ∧ jsWs c = false) ∨ (∃ c, x = [c] ∧ jsWs c = true) := by
  rw [tailCapture] at h
  by_cases h1 : rest.dropWhile jsWs = []
  · rw [if_pos h1] at h
    by_cases h2 : 2 ≤ rest.length
    · rw [if_pos h2] at h
      cases hg : rest.getLast? with
      | none => rw [hg] at h; simp at h
      | some c =>
        rw [hg] at h
        simp only [Option.map_some', Option.some.injEq] at h
        have hall : ∀ a ∈ rest, jsWs a := List.dropWhile_eq_nil_iff.mp h1
        exact Or.inr ⟨c, h.symm, hall c (List.mem_of_getLast?_eq_some hg)⟩
    · rw [if_neg h2] at h; cases h
  · rw [if_neg h1] at h
    by_cases h3 : rest.takeWhile jsWs = []
    · rw [if_pos h3] at h; cases h
    · rw [if_neg h3] at h
      simp only [Option.some.injEq] at h
      left
      cases hd : rest.dropWhile jsWs with
      | nil => exact absurd hd h1
      | cons c cs =>
        refine ⟨c, cs, by rw [← h, hd], ?_⟩
        have hh := List.head?_dropWhile_not jsWs rest
        rw [hd] at hh
        simpa using hh

theorem todoCapture_some (l x : List Char) (h : todoCapture l = some x) :
    ∃ rest b2 r2, l = '-' :: rest ∧ rest.takeWhile jsWs ≠ [] ∧
      rest.dropWhile jsWs = '[' :: b2 :: ']' :: r2 ∧ jsWs b2 = true ∧
      tailCapture r2 = some x := by
  cases l with
  | nil => simp [todoCapture] at h
  | cons c0 rest =>
    rw [todoCapture] at h
    by_cases hc0 : c0 = '-'
    · rw [if_pos hc0] at h
      by_cases htw : rest.takeWhile jsWs = []
      · rw [if_pos htw] at h; cases h
      · rw [if_neg htw] at h
        cases hb : bracketTail (rest.dropWhile jsWs) with
        | none => rw [hb] at h; cases h
        | some pr =>
          obtain ⟨b2, r2⟩ := pr
          rw [hb] at h
          simp only [Option.some_bind] at h
          split_ifs at h with hws
          exact ⟨rest, b2, r2, by rw [hc0], htw, bracketTail_some _ _ _ hb, hws, h⟩
    · rw [if_neg hc0] at h; cases h

theorem prioClassify_eq_some_false (l X : List Char)
    (h : prioClassify l = some ⟨X, false⟩) :
    todoCapture l = some X ∧ jsTrim X ≠ [] := by
  cases hd : doneCapture l with
  | some t => simp only [prioClassify, hd] at h; simp at h
  | none =>
    cases ht : todoCapture l with
    | none =>
      simp only [prioClassify, hd, ht] at h
      exact absurd h (by simp)
    | some t =>
      simp only [prioClassify, hd, ht] at h
      split_ifs at h with htr
      simp only [Option.some.injEq, PriorityItem.mk.injEq] at h
      exact ⟨by rw [h.1], h.1 ▸ htr⟩

theorem incClassify_of_todo (l X : List Char) (ht : todoCapture l = some X)
    (htr : jsTrim X ≠ []) : incClassify l = some (stripRolled X) := by
  simp only [incClassify, ht, if_pos htr]

theorem mem_extractIncomplete_of (y l X : List Char)
    (hl : l ∈ prioritiesRegion (splitNl y)) (ht : todoCapture l = some X)
    (htr : jsTrim X ≠ []) :
    stripRolled X ∈ extractIncompletePriorities y := by
  rw [extractIncompletePriorities_eq]
  exact List.mem_filterMap.mpr ⟨l, hl, incClassify_of_todo l X ht htr⟩

theorem getPrioritiesBody_unchecked_mem (y X : List Char)
    (h : PriorityItem.mk X false ∈ getPrioritiesBody y) :
    ∃ l ∈ prioritiesRegion (splitNl y), todoCapture l = some X ∧ jsTrim X ≠ [] := by
  rw [getPrioritiesBody_eq] at h
  obtain ⟨l, hl, hc⟩ := List.mem_filterMap.mp h
  obtain ⟨ht, htr⟩ := prioClassify_eq_some_false l X hc
  exact ⟨l, hl, ht, htr⟩

theorem stripRolled_pfx (x : List Char) : stripRolled x <+: x := by
  simp only [stripRolled]
  split_ifs with h
  · have hsuf : ((x.reverse.dropWhile jsWs).drop rolledMarker.length).dropWhile jsWs
        <:+ x.reverse :=
      (List.dropWhile_suffix jsWs).trans
        ((List.drop_suffix _ _).trans (List.dropWhile_suffix jsWs))
    have hpre := List.reverse_prefix.mpr hsuf
    simpa using hpre
  · exact List.prefix_refl x

theorem stripRolled_subset (x : List Char) : ∀ c ∈ stripRolled x, c ∈ x :=
  fun _ hc => (stripRolled_pfx x).subset hc

theorem todoCapture_subset_line (l x : List Char) (h : todoCapture l = some x) :
    ∀ a ∈ x, a ∈ l := by
  obtain ⟨rest, b2, r2, hl, _, hdw, _, htc⟩ := todoCapture_some l x h
  intro a ha
  have h1 : a ∈ r2 := tailCapture_subset r2 x htc a ha
  have h2 : a ∈ rest.dropWhile jsWs := by rw [hdw]; simp [h1]
  have h3 : a ∈ rest := List.dropWhile_subset jsWs h2
  rw [hl]
  exact List.mem_cons_of_mem _ h3

theorem prioritiesRegion_subset (lines : List (List Char)) :
    ∀ l ∈ prioritiesRegion lines, l ∈ lines := by
  intro l hl
  rw [prioritiesRegion] at hl
  exact List.dropWhile_subset _ (List.drop_subset _ _ (List.takeWhile_subset _ hl))

theorem jsTrim_singleton_ws (c : Char) (hw : jsWs c = true) : jsTrim [c] = [] := by
  simp [jsTrim, hw]

theorem incClassify_eq_some (l p : List Char) (hc : incClassify l = some p) :
    ∃ x, todoCapture l = some x ∧ jsTrim x ≠ [] ∧ p = stripRolled x := by
  cases ht : todoCapture l with
  | none =>
    simp only [incClassify, ht] at hc
    exact absurd hc (by simp)
  | some x =>
    simp only [incClassify, ht] at hc
    split_ifs at hc with htr
    simp only [Option.some.injEq] at hc
    exact ⟨x, rfl, htr, hc.symm⟩

theorem inc_mem_spec (y p : List Char) (hp : p ∈ extractIncompletePriorities y) :
    ('\n' ∉ p) ∧ (p = [] ∨ ∃ c cs, p = c :: cs ∧ jsWs c = false) := by
  rw [extractIncompletePriorities_eq] at hp
  obtain ⟨l, hl, hc⟩ := List.mem_filterMap.mp hp
  obtain ⟨x, ht, htr, hpx⟩ := incClassify_eq_some l p hc
  have hlnl : '\n' ∉ l := mem_splitNl_no_nl y l (prioritiesRegion_subset _ l hl)
  constructor
  · intro hmem
    exact hlnl (todoCapture_subset_line l x ht '\n'
      (stripRolled_subset x '\n' (hpx ▸ hmem)))
  · obtain ⟨rest, b2, r2, _, _, _, _, htc⟩ := todoCapture_some l x ht
    rcases tailCapture_shape r2 x htc with ⟨c, cs, hx, hcw⟩ | ⟨c, hx, hcw⟩
    · obtain ⟨t, hts⟩ := stripRolled_pfx x
      cases hq : stripRolled x with
      | nil => exact Or.inl (hpx ▸ hq)
      | cons q qs =>
        refine Or.inr ⟨q, qs, hpx ▸ hq, ?_⟩
        rw [hq] at hts
        rw [hx] at hts
        have : q = c := by
          have := hts
          simp only [List.cons_append, List.cons.injEq] at this
          exact this.1
        exact this ▸ hcw
    · exact absurd (hx ▸ jsTrim_singleton_ws c hcw) htr


theorem joinNl_append : ∀ (xs ys : List (List Char)), xs ≠ [] → ys ≠ [] →
    joinNl (xs ++ ys) = joinNl xs ++ '\n' :: joinNl ys
  | [], _, hx, _ => absurd rfl hx
  | [_], [], _, hy => absurd rfl hy
  | [a], b :: bs, _, _ => by
      rw [List.singleton_append, joinNl_cons_cons, joinNl_singleton]
  | a :: a2 :: as2, ys, _, hy => by
      have ih := joinNl_append (a2 :: as2) ys (by simp) hy
      rw [show (a :: a2 :: as2) ++ ys = a :: a2 :: (as2 ++ ys) from rfl]
      rw [joinNl_cons_cons, joinNl_cons_cons]
      rw [show a2 :: (as2 ++ ys) = (a2 :: as2) ++ ys from rfl, ih]
      simp

theorem mem_joinNl : ∀ (lss : List (List Char)) (c : Char), c ∈ joinNl lss →
    c = '\n' ∨ ∃ l ∈ lss, c ∈ l
  | [], c, h => by simp [joinNl, List.intercalate] at h
  | [a], c, h => by
      rw [joinNl_singleton] at h
      exact Or.inr ⟨a, by simp, h⟩
  | a :: b :: t, c, h => by
      rw [joinNl_cons_cons] at h
      rcases List.mem_append.mp h with h | h
      · exact Or.inr ⟨a, by simp, h⟩
      · rcases List.mem_cons.mp h with h | h
        · exact Or.inl h
        · rcases mem_joinNl (b :: t) c h with h | ⟨l, hl, hc⟩
          · exact Or.inl h
          · exact Or.inr ⟨l, List.mem_cons_of_mem a hl, hc⟩

theorem preSkel_eq (dp : DateParts) : preSkel dp = joinNl (preLines dp) ++ ['\n'] := by
  rw [preLines, joinNl_cons_cons, joinNl_cons_cons, joinNl_cons_cons, joinNl_cons_cons,
    joinNl_cons_cons, joinNl_singleton, preSkel]
  simp only [List.append_assoc, List.cons_append, List.nil_append]

theorem joinNl_tailLines : joinNl tailLines = "- [ ] \n".data ++ sufSkel := by
  rfl

theorem content_as_joinNl (dp : DateParts) (mids : List (List Char)) (hm : mids ≠ []) :
    preSkel dp ++ (joinNl mids ++ "\n- [ ] \n".data) ++ sufSkel
      = joinNl (preLines dp ++ mids ++ tailLines) := by
  have h1 : preLines dp ≠ [] := by rw [preLines]; simp
  have h2 : mids ++ tailLines ≠ [] :=
    fun hcon => hm (List.append_eq_nil.mp hcon).1
  have h3 : tailLines ≠ [] := by rw [tailLines]; simp
  simp only [List.append_assoc]
  rw [joinNl_append (preLines dp) (mids ++ tailLines) h1 h2,
    joinNl_append mids tailLines hm h3, preSkel_eq, joinNl_tailLines]
  simp only [List.append_assoc, List.cons_append, List.singleton_append, List.nil_append]

theorem preLines_no_nl (dp : DateParts) : ∀ l ∈ preLines dp, '\n' ∉ l := by
  intro l hl
  rw [preLines] at hl
  simp only [List.mem_cons, List.not_mem_nil, or_false] at hl
  rcases hl with rfl | rfl | rfl | rfl | rfl | rfl
  · decide
  · intro hm
    rcases List.mem_append.mp hm with hm | hm
    · revert hm; decide
    · exact ((formatDate_plain dp _ hm).1) rfl
  · decide
  · intro hm
    rcases List.mem_append.mp hm with hm | hm
    · rcases List.mem_append.mp hm with hm | hm
      · rcases List.mem_append.mp hm with hm | hm
        · revert hm; decide
        · exact ((dayName_plain dp _ hm).1) rfl
      · revert hm; decide
    · exact ((fullDate_plain dp _ hm).1) rfl
  · decide
  · decide

theorem tailLines_no_nl : ∀ l ∈ tailLines, '\n' ∉ l := by decide

theorem rolledLine_no_nl (p : List Char) (hp : '\n' ∉ p) : '\n' ∉ rolledLine p := by
  intro hm
  rw [rolledLine] at hm
  rcases List.mem_append.mp hm with hm | hm
  · rcases List.mem_append.mp hm with hm | hm
    · revert hm; decide
    · exact hp hm
  · revert hm; decide

theorem preSkel_no_bracket (dp : DateParts) : '[' ∉ preSkel dp := by
  intro hm
  rw [preSkel] at hm
  rcases List.mem_append.mp hm with hm | hm
  · rcases List.mem_append.mp hm with hm | hm
    · rcases List.mem_append.mp hm with hm | hm
      · rcases List.mem_append.mp hm with hm | hm
        · rcases List.mem_append.mp hm with hm | hm
          · rcases List.mem_append.mp hm with hm | hm
            · revert hm; decide
            · exact ((formatDate_plain dp _ hm).2.1) rfl
          · revert hm; decide
        · exact ((dayName_plain dp _ hm).2.1) rfl
      · revert hm; decide
    · exact ((fullDate_plain dp _ hm).2.1) rfl
  · revert hm; decide

theorem isPrefixOf_cons2_of_ne {a b c : Char} (p l : List Char) (h : b ≠ c) :
    (a :: b :: p).isPrefixOf (a :: c :: l) = false := by
  simp [List.isPrefixOf, h]

theorem takeWhile_append_all (p : α → Bool) : ∀ (xs ys : List α), (∀ x ∈ xs, p x = true) →
    (xs ++ ys).takeWhile p = xs ++ ys.takeWhile p
  | [], _, _ => rfl
  | x :: xs, ys, h => by
      have hx : p x = true := h x (List.mem_cons_self x xs)
      rw [List.cons_append, List.takeWhile_cons, if_pos hx,
        takeWhile_append_all p xs ys fun a ha => h a (List.mem_cons_of_mem x ha)]
      rfl

theorem dropWhile_append_all (p : α → Bool) : ∀ (xs ys : List α), (∀ x ∈ xs, p x = true) →
    (xs ++ ys).dropWhile p = ys.dropWhile p
  | [], _, _ => rfl
  | x :: xs, ys, h => by
      have hx : p x = true := h x (List.mem_cons_self x xs)
      rw [List.cons_append, List.dropWhile_cons, if_pos hx]
      exact dropWhile_append_all p xs ys fun a ha => h a (List.mem_cons_of_mem x ha)

theorem rolledLine_not_header (p : List Char) :
    "## ".data.isPrefixOf (rolledLine p) = false := by
  rw [show rolledLine p = '-' :: ((" [ ] ".data ++ p) ++ " *(rolled over)*".data) from rfl,
    show "## ".data = '#' :: "# ".data from rfl]
  exact isPrefixOf_cons_of_ne (by decide)

theorem region_computation (dp : DateParts) (mids : List (List Char))
    (hmid : ∀ l ∈ mids, "## ".data.isPrefixOf l = false) :
    prioritiesRegion (preLines dp ++ mids ++ tailLines) = mids ++ ["- [ ] ".data, []] := by
  have he2 : "## Priorities".data.isPrefixOf ("date: ".data ++ formatDate dp) = false := by
    rw [show "date: ".data ++ formatDate dp = 'd' :: ("ate: ".data ++ formatDate dp) from rfl,
      show "## Priorities".data = '#' :: "# Priorities".data from rfl]
    exact isPrefixOf_cons_of_ne (by decide)
  have he4 : "## Priorities".data.isPrefixOf
      ("# ".data ++ dayName dp ++ ", ".data ++ fullDate dp) = false := by
    rw [show "# ".data ++ dayName dp ++ ", ".data ++ fullDate dp
        = '#' :: ' ' :: ((dayName dp ++ ", ".data) ++ fullDate dp) from rfl,
      show "## Priorities".data = '#' :: '#' :: " Priorities".data from rfl]
    exact isPrefixOf_cons2_of_ne _ _ (by decide)
  have hA : ∀ l ∈ ["---".data, "date: ".data ++ formatDate dp, "---".data,
      "# ".data ++ dayName dp ++ ", ".data ++ fullDate dp, ([] : List Char)],
      (fun l => !("## Priorities".data.isPrefixOf l)) l = true := by
    intro l hl
    simp only [List.mem_cons, List.not_mem_nil, or_false] at hl
    rcases hl with rfl | rfl | rfl | rfl | rfl
    · decide
    · simp only [he2, Bool.not_false]
    · decide
    · simp only [he4, Bool.not_false]
    · decide
  have hsplit : preLines dp ++ mids ++ tailLines
      = ["---".data, "date: ".data ++ formatDate dp, "---".data,
         "# ".data ++ dayName dp ++ ", ".data ++ fullDate dp, ([] : List Char)]
        ++ ("## Priorities".data :: (mids ++ tailLines)) := by
    rw [preLines]; simp
  have hmids2 : ∀ l ∈ mids,
      (fun l => !("## ".data.isPrefixOf l && !("## Priorities".data.isPrefixOf l))) l
        = true := by
    intro l hl
    simp [hmid l hl]
  rw [prioritiesRegion, hsplit, dropWhile_append_all _ _ _ hA, List.dropWhile_cons,
    if_neg (by decide)]
  rw [show ("## Priorities".data :: (mids ++ tailLines)).drop 1 = mids ++ tailLines from rfl]
  rw [takeWhile_append_all _ _ _ hmids2]
  rw [show tailLines.takeWhile
      (fun l => !("## ".data.isPrefixOf l && !("## Priorities".data.isPrefixOf l)))
      = ["- [ ] ".data, []] from by decide]

theorem todoCapture_rolled (q : Char) (qs : List Char) (hq : jsWs q = false) :
    todoCapture (rolledLine (q :: qs)) = some ((q :: qs) ++ " *(rolled over)*".data) := by
  have hstep : todoCapture (rolledLine (q :: qs))
      = tailCapture (' ' :: (q :: (qs ++ " *(rolled over)*".data))) := rfl
  have hdw : (' ' :: (q :: (qs ++ " *(rolled over)*".data))).dropWhile jsWs
      = q :: (qs ++ " *(rolled over)*".data) := by
    rw [List.dropWhile_cons, if_pos (by decide), List.dropWhile_cons, if_neg (by simp [hq])]
  have htw : (' ' :: (q :: (qs ++ " *(rolled over)*".data))).takeWhile jsWs = [' '] := by
    rw [List.takeWhile_cons, if_pos (by decide), List.takeWhile_cons, if_neg (by simp [hq])]
  rw [hstep, tailCapture, hdw, htw]
  simp

theorem doneCapture_rolled (q : Char) (qs : List Char) :
    doneCapture (rolledLine (q :: qs)) = none := rfl

theorem jsTrim_ne_nil_of_mem (x : List Char) (c : Char) (hc : c ∈ x)
    (hw : jsWs c = false) : jsTrim x ≠ [] := by
  intro h
  rw [jsTrim, List.reverse_eq_nil_iff] at h
  have hall : ∀ a ∈ (x.dropWhile jsWs).reverse, jsWs a = true :=
    List.dropWhile_eq_nil_iff.mp h
  have hx : ∀ a ∈ x, jsWs a = true := by
    intro a ha
    have hsplit : x.takeWhile jsWs ++ x.dropWhile jsWs = x :=
      List.takeWhile_append_dropWhile jsWs x
    rcases List.mem_append.mp (hsplit ▸ ha) with h1 | h1
    · exact List.mem_takeWhile_imp h1
    · exact hall a (List.mem_reverse.mpr h1)
  rw [hx c hc] at hw
  cases hw

theorem prioClassify_rolled_cons (q : Char) (qs : List Char) (hq : jsWs q = false) :
    prioClassify (rolledLine (q :: qs))
      = some ⟨(q :: qs) ++ " *(rolled over)*".data, false⟩ := by
  have hne : jsTrim ((q :: qs) ++ " *(rolled over)*".data) ≠ [] :=
    jsTrim_ne_nil_of_mem _ q (by simp) hq
  simp only [prioClassify, doneCapture_rolled, todoCapture_rolled q qs hq, if_pos hne]

theorem prioClassify_rolled_nil :
    prioClassify (rolledLine []) = some ⟨"*(rolled over)*".data, false⟩ := by
  decide

theorem no_dollar_rolled (inc : List (List Char)) (hd : ∀ p ∈ inc, '$' ∉ p) :
    '$' ∉ rolledSection inc ++ "\n- [ ] \n".data := by
  intro hm
  rcases List.mem_append.mp hm with hm | hm
  · rw [rolledSection] at hm
    rcases mem_joinNl _ '$' hm with h | ⟨l, hl, hc⟩
    · exact absurd h (by decide)
    · obtain ⟨p, hp, rfl⟩ := List.mem_map.mp hl
      rw [rolledLine] at hc
      rcases List.mem_append.mp hc with hc | hc
      · rcases List.mem_append.mp hc with hc | hc
        · revert hc; decide
        · exact hd p hp hc
      · revert hc; decide
  · revert hm; decide

theorem jsReplaceFirst_rollover (pre suf rep : List Char)
    (hno : ∀ i, i < pre.length →
      ¬ "- [ ] \n".data.isPrefixOf ((pre ++ "- [ ] \n".data ++ suf).drop i))
    (hrep : '$' ∉ rep) :
    jsReplaceFirst (pre ++ "- [ ] \n".data ++ suf) "- [ ] \n".data rep
      = pre ++ rep ++ suf := by
  rw [jsReplaceFirst_skip _ rep pre suf (by decide) hno,
    getSubstitution_no_dollar _ _ _ rep hrep]

theorem defaultSkeleton_decomp (dp : DateParts) :
    defaultSkeleton dp = preSkel dp ++ "- [ ] \n".data ++ sufSkel := by
  rw [defaultSkeleton, preSkel, sufSkel]
  simp only [List.append_assoc]
  rfl

theorem ensureContent_template_if (cal : Int → DateParts) (d : Int) (fs : Fs)
    (t y : List Char) (htm : fs.template = some t) (hy : fs.notes (d - 1) = some y) :
    ensureContent cal d fs
      = if (extractIncompletePriorities y).length > 0
        then jsReplaceFirst (instantiateTemplate t (cal d)) "- [ ] \n".data
          (rolledSection (extractIncompletePriorities y) ++ "\n- [ ] \n".data)
        else instantiateTemplate t (cal d) := by
  rw [ensureContent, htm, hy]

theorem ensureContent_skeleton_if (cal : Int → DateParts) (d : Int) (fs : Fs)
    (y : List Char) (htm : fs.template = none) (hy : fs.notes (d - 1) = some y) :
    ensureContent cal d fs
      = if (extractIncompletePriorities y).length > 0
        then jsReplaceFirst (defaultSkeleton (cal d)) "- [ ] \n".data
          (rolledSection (extractIncompletePriorities y) ++ "\n- [ ] \n".data)
        else defaultSkeleton (cal d) := by
  rw [ensureContent, htm, hy]

theorem ensureContent_default_rolled (cal : Int → DateParts) (d : Int) (fs : Fs)
    (y : List Char) (htm : fs.template = none) (hy : fs.notes (d - 1) = some y)
    (hinc : extractIncompletePriorities y ≠ [])
    (hdollar : ∀ p ∈ extractIncompletePriorities y, '$' ∉ p) :
    ensureContent cal d fs
      = preSkel (cal d) ++ (rolledSection (extractIncompletePriorities y)
          ++ "\n- [ ] \n".data) ++ sufSkel := by
  have hlen : (extractIncompletePriorities y).length > 0 := List.length_pos.mpr hinc
  rw [ensureContent_skeleton_if cal d fs y htm hy, if_pos hlen, defaultSkeleton_decomp]
  exact jsReplaceFirst_rollover (preSkel (cal d)) sufSkel _
    (no_early_placeholder (preSkel (cal d)) sufSkel (preSkel_no_bracket (cal d)))
    (no_dollar_rolled _ hdollar)

/-! ## Claim theorems -/

/-- Claim C2: for an existing daily note, `appendToSection` is a pure no-op
(total, document byte-for-byte unchanged, nothing appended at the end) when
no line of the note carries the level-2 header for the section — the header
the engine recognizes, a line starting with `"## " + name`; when such a
header is present (first occurrence at index `i`, the lines before it all
lacking the header), the new line is spliced in right after the header,
skipping only an initial run of blank and HTML-comment lines, with every
original line kept in its original relative order. -/
theorem C2_appendToSection_absent_noop_present_insert
    (cal : Int → DateParts) (s l : List Char) (d : Int) (fs : Fs) (content : List Char)
    (hnote : fs.notes d = some content) :
    ((∀ ln ∈ splitNl content, ¬ (headerPfx s).isPrefixOf ln) →
      (appendToSection cal s l d fs).notes d = some content)
    ∧ ∀ pre suf hdr,
        splitNl content = pre ++ hdr :: suf →
        (∀ p ∈ pre, ¬ (headerPfx s).isPrefixOf p) →
        (headerPfx s).isPrefixOf hdr →
        (appendToSection cal s l d fs).notes d
          = some (joinNl (pre ++ hdr :: spliceAt (skipBlanks (headerPfx s) suf) l suf))
        ∧ ∀ ln ∈ suf.take (skipBlanks (headerPfx s) suf),
            "<!-- ".data.isPrefixOf ln = true ∨ jsTrim ln = [] := by
  constructor
  · intro habsent
    rw [appendToSection_existing cal s l d fs content hnote]
    rw [appendBody_of_none s l content (findIdxP_eq_none _ _ habsent)]
  · intro pre suf hdr hdec hpre hhit
    have hfind : findIdxP (fun ln => (headerPfx s).isPrefixOf ln) (splitNl content)
        = some pre.length := by
      rw [hdec]; exact findIdxP_append_hit _ _ _ _ hpre hhit
    have hdecomp := spliceAt_decomp pre suf hdr l (skipBlanks (headerPfx s) suf)
    constructor
    · rw [appendToSection_existing cal s l d fs content hnote,
        appendBody_of_some s l content pre.length hfind, hdec, hdecomp.1, hdecomp.2]
    · exact skipBlanks_spec (headerPfx s) suf

/-- Witness for C2 at concrete inputs: a note whose only section is
`## Notes`.  Appending to the absent section `Gone` leaves it unchanged;
appending to `Notes` splices the line in directly after the header. -/
theorem C2_witness :
    (appendToSection (fun _ => ⟨2026, 0, 5, 0⟩) "Gone".data "- x".data 0
        ⟨fun i => if i = 0 then some "## Notes\nhi\n".data else none, none⟩).notes 0
      = some "## Notes\nhi\n".data
    ∧ (appendToSection (fun _ => ⟨2026, 0, 5, 0⟩) "Notes".data "- y".data 0
        ⟨fun i => if i = 0 then some "## Notes\nhi\n".data else none, none⟩).notes 0
      = some (joinNl (([] : List (List Char)) ++ "## Notes".data ::
          spliceAt (skipBlanks (headerPfx "Notes".data) ["hi".data, []]) "- y".data
            ["hi".data, []])) := by
  constructor
  · exact (C2_appendToSection_absent_noop_present_insert (fun _ => ⟨2026, 0, 5, 0⟩)
      "Gone".data "- x".data 0 _ "## Notes\nhi\n".data rfl).1 (by decide)
  · exact (((C2_appendToSection_absent_noop_present_insert (fun _ => ⟨2026, 0, 5, 0⟩)
      "Notes".data "- y".data 0 _ "## Notes\nhi\n".data rfl).2 [] ["hi".data, []]
      "## Notes".data (by decide) (by decide) (by decide)).1)

/-- Claim C3 fails on the code: `getPriorities` does not stop at the next
level-2 header when that header itself starts with `"## Priorities"` — here
`## Priorities B` is a level-2 header, yet the item on the line after it is
still returned, so the scan is not confined to the lines between the
Priorities header and the next level-2 header. -/
theorem C3_counterexample :
    getPrioritiesBody "## Priorities\n- [ ] a\n## Priorities B\n- [ ] c\n## Log\n".data
      = [⟨"a".data, false⟩, ⟨"c".data, false⟩]
    ∧ "## ".data.isPrefixOf "## Priorities B".data = true := by
  constructor
  · decide
  · decide

/-- Claim C3, amended: for an existing daily note, `getPriorities` returns
exactly the per-line classification (`prioClassify`: checked first,
case-insensitive marker, any text; else unchecked with non-empty trimmed
text; else nothing) of the lines after the first line starting with
`"## Priorities"`, up to the next level-2 header that does not itself start
with `"## Priorities"` (such Priorities-prefixed headers are skipped and the
scan continues past them). -/
theorem C3_getPriorities_region (cal : Int → DateParts) (d : Int) (fs : Fs)
    (content : List Char) (hnote : fs.notes d = some content) :
    getPriorities cal d fs = (prioritiesRegion (splitNl content)).filterMap prioClassify := by
  rw [getPriorities, readDailyNote_existing cal d fs content hnote, getPrioritiesBody_eq]

/-- Witness for C3 at a concrete store: one note with one unchecked and one
checked item. -/
theorem C3_witness :
    getPriorities (fun _ => ⟨2026, 0, 5, 0⟩) 0
        ⟨fun i => if i = 0 then some "## Priorities\n- [ ] a\n- [x] b\n## Log\n".data
          else none, none⟩
      = (prioritiesRegion (splitNl "## Priorities\n- [ ] a\n- [x] b\n## Log\n".data)).filterMap
          prioClassify :=
  C3_getPriorities_region (fun _ => ⟨2026, 0, 5, 0⟩) 0 _
    "## Priorities\n- [ ] a\n- [x] b\n## Log\n".data rfl

/-- Claim C4: `appendToLog` formats the entry as `- HH:MM — text` from the
injected wall clock; the target is any level-2 header whose text starts with
`Log` (prefix match); and when no such header exists anywhere the formatted
line is appended at the very end of the document rather than dropped. -/
theorem C4_appendToLog_format_prefix_fallback (content entry : List Char) (hh mm : Nat) :
    ((∀ ln ∈ splitNl content, ¬ "## Log".data.isPrefixOf ln) →
      appendToLogBody content entry hh mm
        = content ++ '\n' ::
            ("- ".data ++ pad2 hh ++ ":".data ++ pad2 mm ++ " — ".data ++ entry ++ ['\n']))
    ∧ ∀ pre suf ext,
        splitNl content = pre ++ ("## Log".data ++ ext) :: suf →
        (∀ p ∈ pre, ¬ "## Log".data.isPrefixOf p) →
        appendToLogBody content entry hh mm
          = joinNl (pre ++ ("## Log".data ++ ext) ::
              spliceAt (skipBlanks "## Log".data suf) (logLine entry hh mm) suf) := by
  constructor
  · intro habsent
    rw [appendToLogBody_of_none content entry hh mm (findIdxP_eq_none _ _ habsent)]
    simp [logLine]
  · intro pre suf ext hdec hpre
    have hfind : findIdxP (fun ln => "## Log".data.isPrefixOf ln) (splitNl content)
        = some pre.length := by
      rw [hdec]
      exact findIdxP_append_hit _ _ _ _ hpre (isPrefixOf_append_self _ _)
    have hdecomp := spliceAt_decomp pre suf ("## Log".data ++ ext) (logLine entry hh mm)
      (skipBlanks "## Log".data suf)
    rw [appendToLogBody_of_some content entry hh mm pre.length hfind, hdec, hdecomp.1,
      hdecomp.2]

/-- Witness for C4 at concrete inputs: a document with no Log-prefixed header
gets the formatted line at its very end; a document whose only Log-like
header is `## Logistics` receives the line right after that header. -/
theorem C4_witness :
    appendToLogBody "# T\n\n## Notes\n".data "hi".data 9 5
      = "# T\n\n## Notes\n".data ++ '\n' ::
          ("- ".data ++ pad2 9 ++ ":".data ++ pad2 5 ++ " — ".data ++ "hi".data ++ ['\n'])
    ∧ appendToLogBody "# T\n\n## Logistics\nstuff\n".data "hi".data 9 5
      = joinNl (["# T".data, []] ++ ("## Log".data ++ "istics".data) ::
          spliceAt (skipBlanks "## Log".data ["stuff".data, []]) (logLine "hi".data 9 5)
            ["stuff".data, []]) := by
  constructor
  · exact (C4_appendToLog_format_prefix_fallback "# T\n\n## Notes\n".data "hi".data 9 5).1
      (by decide)
  · exact (C4_appendToLog_format_prefix_fallback "# T\n\n## Logistics\nstuff\n".data
      "hi".data 9 5).2 ["# T".data, []] ["stuff".data, []] "istics".data (by decide)
      (by decide)

/-- Claim C6 fails on the code: `appendToSection` locates its header by
`startsWith`, not by exact match.  For a document whose only header is
`## Decisions Log` — a strict extension of the name `Decisions` — the claim
says the operation behaves as if the header were absent, but the code splices
the line in right after `## Decisions Log`, changing the document. -/
theorem C6_counterexample :
    (appendToSection (fun _ => ⟨2026, 0, 5, 0⟩) "Decisions".data "- x".data 0
        ⟨fun i => if i = 0 then some "## Decisions Log\n- old\n".data else none,
          none⟩).notes 0
      = some "## Decisions Log\n- x\n- old\n".data
    ∧ "## Decisions Log\n- x\n- old\n".data ≠ "## Decisions Log\n- old\n".data := by
  constructor
  · decide
  · decide

/-- Claim C6, amended: `appendToSection` selects the first line that starts
with `"## " + name`; a header `## N` where `N` strictly extends `name` (for
example `## Decisions Log` for `Decisions`) therefore qualifies, and the
operation inserts into that section instead of behaving as if the header
were absent. -/
theorem C6_appendToSection_prefix_header (cal : Int → DateParts) (name ext l : List Char)
    (d : Int) (fs : Fs) (pre suf : List (List Char))
    (hnote : fs.notes d = some (joinNl (pre ++ ("## ".data ++ name ++ ext) :: suf)))
    (hpre : ∀ p ∈ pre, ¬ (headerPfx name).isPrefixOf p)
    (hnl : ∀ p ∈ pre, '\n' ∉ p) (hnlh : '\n' ∉ "## ".data ++ name ++ ext)
    (hnls : ∀ p ∈ suf, '\n' ∉ p) :
    (appendToSection cal name l d fs).notes d
      = some (joinNl (pre ++ ("## ".data ++ name ++ ext) ::
          spliceAt (skipBlanks (headerPfx name) suf) l suf)) := by
  have hhit : (headerPfx name).isPrefixOf ("## ".data ++ name ++ ext) = true := by
    have := isPrefixOf_append_self (headerPfx name) ext
    simpa [headerPfx, List.append_assoc] using this
  have hmain := splice_into_joinNl pre suf ("## ".data ++ name ++ ext) l (headerPfx name)
    hpre hhit hnl hnlh hnls
  rw [appendToSection_existing cal name l d fs _ hnote]
  rw [appendBody_of_some name l _ pre.length (by rw [hmain.1]; exact hmain.2.1)]
  rw [hmain.1, hmain.2.2.1, hmain.2.2.2]

/-- Witness for C6's amended statement at concrete inputs: the name
`Decisions` against the extended header `## Decisions Log`. -/
theorem C6_witness :
    (appendToSection (fun _ => ⟨2026, 0, 5, 0⟩) "Decisions".data "- w".data 0
        ⟨fun i => if i = 0
            then some (joinNl (["# T".data] ++ ("## ".data ++ "Decisions".data ++ " Log".data) :: ["- old".data, []]))
            else none, none⟩).notes 0
      = some (joinNl (["# T".data] ++ ("## ".data ++ "Decisions".data ++ " Log".data) ::
          spliceAt (skipBlanks (headerPfx "Decisions".data) ["- old".data, []]) "- w".data
            ["- old".data, []])) :=
  C6_appendToSection_prefix_header (fun _ => ⟨2026, 0, 5, 0⟩) "Decisions".data " Log".data
    "- w".data 0 _ ["# T".data] ["- old".data, []] rfl (by decide) (by decide) (by decide)
    (by decide)

/-- Claim C7 fails on the code: the decision condition is
`line.length > 15 && line.length < 300`, a strict lower bound, so a
marker-bearing line of exactly 15 characters (here `decided: use Z.`) is
not classified as a decision, and, independently, a valid marker line can
be dropped by the take-5 cap (here the sixth of six distinct decision
lines), so membership is not equivalent to the length interval alone. -/
theorem C7_counterexample :
    (testDecision "decided: use Z.".data = true
      ∧ "decided: use Z.".data.length = 15
      ∧ lightExtractDecisions
          [⟨"message".data, some ⟨some "user".data,
            MsgContent.str "decided: use Z.".data⟩⟩] = [])
    ∧ (testDecision "decided to use a6".data = true
      ∧ 15 < "decided to use a6".data.length
      ∧ "decided to use a6".data.length < 300
      ∧ jsTrim "decided to use a6".data ∉ lightExtractDecisions
          [⟨"message".data, some ⟨some "user".data, MsgContent.str
            "decided to use a1\ndecided to use a2\ndecided to use a3\ndecided to use a4\ndecided to use a5\ndecided to use a6".data⟩⟩]) := by
  refine ⟨⟨by decide, by decide, by decide⟩, by decide, by decide, by decide, ?_⟩
  decide

/-- Claim C7, amended: the decisions array is the trimmed marker-bearing
lines whose (untrimmed) length lies strictly between 15 and 300, collected
over the conversation in order, deduplicated keeping first occurrences, and
truncated to the first five; in particular, for a single-line conversation,
the trimmed line is a decision exactly when the marker matches and the
length is in that open interval. -/
theorem C7_lightExtract_decision_boundary (entries : List SessionEntry) :
    lightExtractDecisions entries
      = (eraseDupKF ((entries.flatMap msgLines).filterMap fun l =>
          if testDecision l ∧ 15 < l.length ∧ l.length < 300
          then some (jsTrim l) else none)).take 5
    ∧ ∀ (l role : List Char), '\n' ∉ l →
        (jsTrim l ∈ lightExtractDecisions
            [⟨"message".data, some ⟨some role, MsgContent.str l⟩⟩]
          ↔ (testDecision l ∧ 15 < l.length ∧ l.length < 300)) :=
  ⟨lightExtractDecisions_characterization entries,
   fun l role hnl => lightExtractDecisions_single l (some role) hnl⟩

/-- Witness for C7 at a concrete input: a 21-character marker line is a
decision (its trimmed form is in the array). -/
theorem C7_witness :
    jsTrim " decided: use Zed now".data ∈ lightExtractDecisions
        [⟨"message".data, some ⟨some "user".data,
          MsgContent.str " decided: use Zed now".data⟩⟩] :=
  ((C7_lightExtract_decision_boundary []).2 " decided: use Zed now".data "user".data
    (by decide)).mpr (by refine ⟨by decide, by decide, by decide⟩)

/-- Claim C8 fails on the code: with all of decisions, solutions and
learnings empty but a project context present, `writeToDaily` still appends
a Log line (the bare `Working on **ctx**` prefix), so the Log append does
not happen exactly when one of the three counts is non-zero. -/
theorem C8_counterexample :
    writeToDaily ⟨[], [], [], [], [], some "pi".data⟩
      = [WriteOp.log "Working on **pi**".data] := by
  decide

/-- Claim C8, amended: `writeToDaily` appends one composed summary line to
Log exactly when one of the decisions, solutions or learnings counts is
non-zero or a project context is present; the summary is the dot-joined
project-context prefix (if present) and comma-joined non-zero counts; every
decision goes to `Decisions` and every learning to `Learned` as its own
bullet; and solutions, todos and commands are persisted nowhere — todos and
commands do not influence the trace at all, and solutions only through
their count in the summary. -/
theorem C8_writeLight_effects (k : ExtractedKnowledge) :
    ((∃ m, WriteOp.log m ∈ writeToDaily k) ↔
      (k.decisions ≠ [] ∨ k.solutions ≠ [] ∨ k.learnings ≠ [] ∨
        k.projectContext.isSome))
    ∧ (∀ m, WriteOp.log m ∈ writeToDaily k →
        m = List.intercalate ". ".data (
          (match k.projectContext with
           | some p => ["Working on **".data ++ p ++ "**".data]
           | none => []) ++
          (if k.decisions = [] ∧ k.solutions = [] ∧ k.learnings = [] then [] else
            [List.intercalate ", ".data
              ((if k.decisions = [] then []
                else [natChars k.decisions.length ++ " decision(s)".data]) ++
               (if k.solutions = [] then []
                else [natChars k.solutions.length ++ " solution(s)".data]) ++
               (if k.learnings = [] then []
                else [natChars k.learnings.length ++ " learning(s)".data]))])))
    ∧ (∀ x, WriteOp.sec "Decisions".data x ∈ writeToDaily k ↔
        ∃ d ∈ k.decisions, "- ".data ++ d = x)
    ∧ (∀ x, WriteOp.sec "Learned".data x ∈ writeToDaily k ↔
        ∃ l ∈ k.learnings, "- ".data ++ l = x)
    ∧ (∀ t c, writeToDaily { k with todos := t, commands := c } = writeToDaily k)
    ∧ (∀ s, s.length = k.solutions.length →
        writeToDaily { k with solutions := s } = writeToDaily k) :=
  ⟨writeToDaily_log_iff k, writeToDaily_log_val k, writeToDaily_sec_decisions k,
   writeToDaily_sec_learned k, writeToDaily_ignores_todos_commands k,
   writeToDaily_solutions_only_counted k⟩

/-- Witness for C8 at concrete records: one decision yields a Log op; a
different solutions list of the same length leaves the trace unchanged. -/
theorem C8_witness :
    (∃ m, WriteOp.log m ∈ writeToDaily ⟨["use X".data], [], [], [], [], none⟩)
    ∧ writeToDaily { (⟨["use X".data], ["s1".data], [], [], [], none⟩ :
          ExtractedKnowledge) with solutions := ["s2".data] }
        = writeToDaily ⟨["use X".data], ["s1".data], [], [], [], none⟩ :=
  ⟨(C8_writeLight_effects ⟨["use X".data], [], [], [], [], none⟩).1.mpr
      (Or.inl (by decide)),
   (C8_writeLight_effects ⟨["use X".data], ["s1".data], [], [], [], none⟩).2.2.2.2.2
      ["s2".data] (by decide)⟩

/-- Claim C5 fails on the code: `parseDeepExtraction` is `JSON.parse` with
no structural validation, so a JSON array — which the claim says must yield
absent — parses successfully and is returned as a present value. -/
theorem C5_counterexample :
    parseDeepExtraction "[1,2,3]".data
      = some (Json.arr [Json.num "1".data, Json.num "2".data, Json.num "3".data]) := by
  rfl

set_option maxRecDepth 8000 in
/-- Claim C5, amended: after stripping at most one leading ```json fence
line and one trailing ``` fence line, the response is decoded by a plain
JSON parse with no shape validation: a raised decode failure — empty
string, non-JSON prose — yields absent (as does a parse producing the JS
`null` itself); a fenced ```json block wrapping a valid object yields the
populated record of its fields; but any other successfully parsed JSON
value is returned as-is, so a JSON array comes back present, not absent. -/
theorem C5_parseResponse_behavior :
    parseDeepExtraction [] = none
    ∧ parseDeepExtraction "this is prose, not JSON".data = none
    ∧ parseDeepExtraction "null".data = none
    ∧ parseDeepExtraction
        "```json\n\x7b\"summary\":\"did things\",\"decisions\":[\"d\"],\"solutions\":[],\"learnings\":[],\"todos\":[],\"commands\":[],\"projectNotes\":\"\",\"resourceTopics\":[]\x7d\n```".data
      = some (Json.obj
          [("summary".data, Json.str "did things".data),
           ("decisions".data, Json.arr [Json.str "d".data]),
           ("solutions".data, Json.arr []),
           ("learnings".data, Json.arr []),
           ("todos".data, Json.arr []),
           ("commands".data, Json.arr []),
           ("projectNotes".data, Json.str []),
           ("resourceTopics".data, Json.arr [])])
    ∧ (parseDeepExtraction "[1,2,3]".data).isSome = true := by
  refine ⟨rfl, rfl, rfl, rfl, rfl⟩

/-- Claim C9: when no note exists for day `d`, both `appendToSection` and
`appendToLog` first materialize the note through the full ensure lifecycle —
the stored content is exactly `ensureContent`, the template instantiation
(or built-in skeleton) with yesterday's rollover spliced in — and only then
insert; in particular an `appendToSection` whose target header is absent
from the ensured content, a silent no-op as an insertion, still leaves the
newly created note on disk with exactly the ensured content. -/
theorem C9_append_materializes_note (cal : Int → DateParts) (s l entry : List Char)
    (hh mm : Nat) (d : Int) (fs : Fs) (h : fs.notes d = none) :
    ((appendToSection cal s l d fs).notes d
        = some (appendBody s l (ensureContent cal d fs)))
    ∧ ((appendToLog cal entry hh mm d fs).notes d
        = some (appendToLogBody (ensureContent cal d fs) entry hh mm))
    ∧ ((∀ ln ∈ splitNl (ensureContent cal d fs), ¬ (headerPfx s).isPrefixOf ln) →
        (appendToSection cal s l d fs).notes d = some (ensureContent cal d fs)) := by
  have he := ensureDailyNote_absent cal d fs h
  refine ⟨?_, ?_, ?_⟩
  · rw [appendToSection_notes, he]
    rfl
  · rw [appendToLog_notes, he]
    rfl
  · intro habsent
    rw [appendToSection_notes, he]
    simp only [Option.getD_some]
    rw [appendBody_of_none s l _ (findIdxP_eq_none _ _ habsent)]

/-- Witness for C9 at a concrete empty store (no template, no notes): the
append targets the absent section `Gone`, yet the day-0 note appears,
holding exactly the built-in skeleton. -/
theorem C9_witness :
    (appendToSection (fun _ => ⟨2026, 0, 5, 0⟩) "Gone".data "- x".data 0
        ⟨fun _ => none, none⟩).notes 0
      = some (ensureContent (fun _ => ⟨2026, 0, 5, 0⟩) 0 ⟨fun _ => none, none⟩) :=
  (C9_append_materializes_note (fun _ => ⟨2026, 0, 5, 0⟩) "Gone".data "- x".data
    "e".data 9 5 0 ⟨fun _ => none, none⟩ rfl).2.2 (by decide)


set_option maxRecDepth 8000 in
/-- Claim C1, counterexample: the original claim fails on the code in both
regions its quantification covers but the amended statement excludes.
First, with an installed template whose first placeholder line sits in an
`## Inbox` section, yesterday's unchecked item `carry me` (a checked
`done thing` is also present) is rolled into Inbox, and the new note's
Priorities section contains no item at all — in particular no rolled-over
`carry me`.  Second, with no template but an unchecked item `pay $& fee`,
the JS replacement substitution expands `$&` to the matched placeholder
line and corrupts the splice: no item of the new note's Priorities section
has text `pay $& fee` after stripping the rollover marker. -/
theorem C1_counterexample :
    (PriorityItem.mk "carry me".data false
        ∈ getPrioritiesBody
          "## Priorities\n- [ ] carry me\n- [x] done thing\n## Log\n".data) ∧
    (PriorityItem.mk "done thing".data true
        ∈ getPrioritiesBody
          "## Priorities\n- [ ] carry me\n- [x] done thing\n## Log\n".data) ∧
    getPrioritiesBody (((ensureDailyNote (fun _ => (⟨2026, 0, 1, 4⟩ : DateParts)) 7
        ⟨fun i => if i = 6 then
            some "## Priorities\n- [ ] carry me\n- [x] done thing\n## Log\n".data
          else none,
          some "# T\n\n## Inbox\n- [ ] \n\n## Priorities\n- [ ] \n".data⟩).notes 7).getD [])
      = [] ∧
    (PriorityItem.mk "pay $& fee".data false
        ∈ getPrioritiesBody
          "## Priorities\n- [ ] pay $& fee\n- [x] done thing\n## Log\n".data) ∧
    (∀ it ∈ getPrioritiesBody (((ensureDailyNote (fun _ => (⟨2026, 0, 1, 4⟩ : DateParts)) 7
        ⟨fun i => if i = 6 then
            some "## Priorities\n- [ ] pay $& fee\n- [x] done thing\n## Log\n".data
          else none, none⟩).notes 7).getD []),
      stripRolled it.text ≠ "pay $& fee".data) :=
  ⟨by decide, by decide, by decide, by decide, by decide⟩

/-- Claim C1: for a day `d` whose note has an unchecked Priorities item `X`
(non-empty after stripping any trailing rollover marker) and a checked item
`Y`, if no note exists for day `d+1` and no template is installed (so the
built-in skeleton is used), `ensureDailyNote` materializes `d+1`'s note whose
Priorities section contains an unchecked item whose text is `X` (marker
stripped) followed by the rollover annotation, contains no checked item at
all — in particular no item for `Y` — and keeps the skeleton's empty
placeholder line as the last checklist line of the section (the scanned
region is exactly the rolled-over lines, then the placeholder, then the
blank).  The `'$' ∉ p` hypothesis rules out JS replacement-pattern escapes
in the rolled-over texts. -/
theorem C1_ensure_rollover (cal : Int → DateParts) (d : Int) (fs : Fs)
    (y X Y : List Char)
    (htm : fs.template = none)
    (hy : fs.notes d = some y)
    (habs : fs.notes (d + 1) = none)
    (hX : PriorityItem.mk X false ∈ getPrioritiesBody y)
    (hXne : stripRolled X ≠ [])
    (hY : PriorityItem.mk Y true ∈ getPrioritiesBody y)
    (hdollar : ∀ p ∈ extractIncompletePriorities y, '$' ∉ p) :
    ∃ c, (ensureDailyNote cal (d + 1) fs).notes (d + 1) = some c ∧
      PriorityItem.mk (stripRolled X ++ " *(rolled over)*".data) false
        ∈ getPrioritiesBody c ∧
      (∀ it ∈ getPrioritiesBody c, it.done = false) ∧
      PriorityItem.mk Y true ∉ getPrioritiesBody c ∧
      prioritiesRegion (splitNl c)
        = (extractIncompletePriorities y).map rolledLine ++ ["- [ ] ".data, []] := by
  obtain ⟨l, hl, ht, htr⟩ := getPrioritiesBody_unchecked_mem y X hX
  have hmem : stripRolled X ∈ extractIncompletePriorities y :=
    mem_extractIncomplete_of y l X hl ht htr
  have hincne : extractIncompletePriorities y ≠ [] := by
    intro hcon
    rw [hcon] at hmem
    exact List.not_mem_nil _ hmem
  have hd1 : d + 1 - 1 = d := by omega
  have hcontent : ensureContent cal (d + 1) fs
      = preSkel (cal (d + 1)) ++ (rolledSection (extractIncompletePriorities y)
          ++ "\n- [ ] \n".data) ++ sufSkel :=
    ensureContent_default_rolled cal (d + 1) fs y htm (by rw [hd1]; exact hy) hincne hdollar
  have hmids_ne : (extractIncompletePriorities y).map rolledLine ≠ [] :=
    fun hcon => hincne (List.map_eq_nil.mp hcon)
  have hcjoin : preSkel (cal (d + 1)) ++ (rolledSection (extractIncompletePriorities y)
        ++ "\n- [ ] \n".data) ++ sufSkel
      = joinNl (preLines (cal (d + 1)) ++ (extractIncompletePriorities y).map rolledLine
          ++ tailLines) := by
    rw [rolledSection]
    exact content_as_joinNl _ _ hmids_ne
  have hnl : ∀ l2 ∈ preLines (cal (d + 1)) ++ (extractIncompletePriorities y).map rolledLine
      ++ tailLines, '\n' ∉ l2 := by
    intro l2 hl2
    rcases List.mem_append.mp hl2 with hl2 | hl2
    · rcases List.mem_append.mp hl2 with hl2 | hl2
      · exact preLines_no_nl _ l2 hl2
      · obtain ⟨p, hp, rfl⟩ := List.mem_map.mp hl2
        exact rolledLine_no_nl p (inc_mem_spec y p hp).1
    · exact tailLines_no_nl l2 hl2
  have hsplitc : splitNl (preSkel (cal (d + 1))
        ++ (rolledSection (extractIncompletePriorities y) ++ "\n- [ ] \n".data) ++ sufSkel)
      = preLines (cal (d + 1)) ++ (extractIncompletePriorities y).map rolledLine
          ++ tailLines := by
    rw [hcjoin]
    exact splitNl_joinNl _ (by rw [preLines]; simp) hnl
  have hmid_hdr : ∀ l2 ∈ (extractIncompletePriorities y).map rolledLine,
      "## ".data.isPrefixOf l2 = false := by
    intro l2 hl2
    obtain ⟨p, hp, rfl⟩ := List.mem_map.mp hl2
    exact rolledLine_not_header p
  have hregion : prioritiesRegion (splitNl (preSkel (cal (d + 1))
        ++ (rolledSection (extractIncompletePriorities y) ++ "\n- [ ] \n".data) ++ sufSkel))
      = (extractIncompletePriorities y).map rolledLine ++ ["- [ ] ".data, []] := by
    rw [hsplitc]
    exact region_computation _ _ hmid_hdr
  have hbody : getPrioritiesBody (preSkel (cal (d + 1))
        ++ (rolledSection (extractIncompletePriorities y) ++ "\n- [ ] \n".data) ++ sufSkel)
      = ((extractIncompletePriorities y).map rolledLine
          ++ ["- [ ] ".data, []]).filterMap prioClassify := by
    rw [getPrioritiesBody_eq, hregion]
  have hdone : ∀ it ∈ getPrioritiesBody (preSkel (cal (d + 1))
        ++ (rolledSection (extractIncompletePriorities y) ++ "\n- [ ] \n".data) ++ sufSkel),
      it.done = false := by
    intro it hit
    rw [hbody] at hit
    obtain ⟨l2, hl2, hcl⟩ := List.mem_filterMap.mp hit
    rcases List.mem_append.mp hl2 with hl2 | hl2
    · obtain ⟨p, hp, rfl⟩ := List.mem_map.mp hl2
      rcases (inc_mem_spec y p hp).2 with rfl | ⟨q, qs, rfl, hqw⟩
      · rw [prioClassify_rolled_nil] at hcl
        simp only [Option.some.injEq] at hcl
        rw [← hcl]
      · rw [prioClassify_rolled_cons q qs hqw] at hcl
        simp only [Option.some.injEq] at hcl
        rw [← hcl]
    · rcases List.mem_cons.mp hl2 with rfl | hl2
      · have h0 : prioClassify "- [ ] ".data = none := by decide
        rw [h0] at hcl
        cases hcl
      · rcases List.mem_cons.mp hl2 with rfl | hl2
        · have h0 : prioClassify ([] : List Char) = none := rfl
          rw [h0] at hcl
          cases hcl
        · exact absurd hl2 (List.not_mem_nil _)
  have hmemC : PriorityItem.mk (stripRolled X ++ " *(rolled over)*".data) false
      ∈ getPrioritiesBody (preSkel (cal (d + 1))
        ++ (rolledSection (extractIncompletePriorities y) ++ "\n- [ ] \n".data) ++ sufSkel) := by
    rw [hbody]
    apply List.mem_filterMap.mpr
    refine ⟨rolledLine (stripRolled X), List.mem_append.mpr (Or.inl
      (List.mem_map.mpr ⟨stripRolled X, hmem, rfl⟩)), ?_⟩
    rcases (inc_mem_spec y (stripRolled X) hmem).2 with hnil | ⟨q, qs, hqeq, hqw⟩
    · exact absurd hnil hXne
    · rw [hqeq]
      exact prioClassify_rolled_cons q qs hqw
  refine ⟨_, ?_, hmemC, hdone, ?_, hregion⟩
  · rw [ensureDailyNote_absent cal (d + 1) fs habs, hcontent]
  · intro hY2
    have h := hdone _ hY2
    simp at h

theorem C1_witness :
    ∃ c, (ensureDailyNote (fun _ => (⟨2026, 0, 1, 4⟩ : DateParts)) (5 + 1)
        ⟨fun i => if i = 5 then
            some "## Priorities\n- [ ] task one\n- [x] done thing\n## Log\n".data
          else none, none⟩).notes (5 + 1) = some c ∧
      PriorityItem.mk (stripRolled "task one".data ++ " *(rolled over)*".data) false
        ∈ getPrioritiesBody c ∧
      (∀ it ∈ getPrioritiesBody c, it.done = false) ∧
      PriorityItem.mk "done thing".data true ∉ getPrioritiesBody c ∧
      prioritiesRegion (splitNl c)
        = (extractIncompletePriorities
            "## Priorities\n- [ ] task one\n- [x] done thing\n## Log\n".data).map rolledLine
          ++ ["- [ ] ".data, []] :=
  C1_ensure_rollover (fun _ => (⟨2026, 0, 1, 4⟩ : DateParts)) 5
    ⟨fun i => if i = 5 then
        some "## Priorities\n- [ ] task one\n- [x] done thing\n## Log\n".data
      else none, none⟩
    "## Priorities\n- [ ] task one\n- [x] done thing\n## Log\n".data
    "task one".data "done thing".data rfl (by decide) (by decide)
    (by decide) (by decide) (by decide) (by decide)

/-- Claim C10: during the rollover, `ensureDailyNote` splices the rolled-over
block at the first occurrence of the literal placeholder line `"- [ ] \n"`
anywhere in the instantiated template text (`hdec` exhibits an occurrence,
`hearly` says no occurrence starts earlier), not specifically within the
Priorities section: the block lands between `pre` and `suf` wherever that
first occurrence sits, with the placeholder line itself retained after the
block. -/
theorem C10_splice_first_placeholder (cal : Int → DateParts) (d : Int) (fs : Fs)
    (t y pre suf : List Char)
    (htm : fs.template = some t)
    (habs : fs.notes d = none)
    (hy : fs.notes (d - 1) = some y)
    (hinc : extractIncompletePriorities y ≠ [])
    (hdec : instantiateTemplate t (cal d) = pre ++ "- [ ] \n".data ++ suf)
    (hearly : ∀ i, i < pre.length →
      ¬ "- [ ] \n".data.isPrefixOf ((pre ++ "- [ ] \n".data ++ suf).drop i))
    (hdollar : ∀ p ∈ extractIncompletePriorities y, '$' ∉ p) :
    (ensureDailyNote cal d fs).notes d
      = some (pre ++ (rolledSection (extractIncompletePriorities y)
          ++ "\n- [ ] \n".data) ++ suf) := by
  have hlen : (extractIncompletePriorities y).length > 0 := List.length_pos.mpr hinc
  rw [ensureDailyNote_absent cal d fs habs, ensureContent_template_if cal d fs t y htm hy,
    if_pos hlen, hdec]
  exact congrArg some
    (jsReplaceFirst_rollover pre suf _ hearly (no_dollar_rolled _ hdollar))

theorem C10_witness :
    (ensureDailyNote (fun _ => (⟨2026, 0, 1, 4⟩ : DateParts)) 7
        ⟨fun i => if i = 6 then some "## Priorities\n- [ ] carry me\n".data else none,
          some "# T\n\n## Inbox\n- [ ] \n\n## Priorities\n- [ ] \n".data⟩).notes 7
      = some ("# T\n\n## Inbox\n".data
          ++ (rolledSection
                (extractIncompletePriorities "## Priorities\n- [ ] carry me\n".data)
              ++ "\n- [ ] \n".data)
          ++ "\n## Priorities\n- [ ] \n".data) :=
  C10_splice_first_placeholder (fun _ => (⟨2026, 0, 1, 4⟩ : DateParts)) 7
    ⟨fun i => if i = 6 then some "## Priorities\n- [ ] carry me\n".data else none,
      some "# T\n\n## Inbox\n- [ ] \n\n## Priorities\n- [ ] \n".data⟩
    "# T\n\n## Inbox\n- [ ] \n\n## Priorities\n- [ ] \n".data
    "## Priorities\n- [ ] carry me\n".data
    "# T\n\n## Inbox\n".data
    "\n## Priorities\n- [ ] \n".data
    rfl (by decide) (by decide) (by decide) (by decide) (by decide) (by decide)
